import Mathlib

/-
Formal model of the `note` repository (a command-line note manager).

The note store identifies each note by a (UTC timestamp, 32-bit random
nonce) pair.  `note.py` encodes this identity as a three-group hexadecimal
identifier `HEAD-TAIL-NONCE` and maps notes to filesystem paths;entity
`note_iterator.py` walks the date-bucketed directory hierarchy with a
cursor/stack state machine, pruning by date range and filtering notes.

This file shallowly embeds those components:
  * timestamps are modelled by `PyDate`, mirroring a `datetime.datetime`
    value (UTC); `validDate` captures the constructor's constraints,
  * the codec (`head_encode`/`head_decode`/`tail_encode`/`tail_decode`/
    `nnid_encode`/`nnid_decode`) is translated from `note.py`.  Python's
    `int(x / n)` on the values in play equals floor division (the floats
    involved are exact enough), so `Nat` division is used,
  * strings are Lean `String`s; `'%08x'` formatting and the identifier
    regular expressions are modelled character-by-character.
-/

deriving instance DecidableEq for Except

namespace NoteModel

/-! ## Characters and hexadecimal formatting -/

/-- Lower-case hexadecimal digit test, the character class `[0-9a-f]`
used by the leaf-filename pattern `NOTE_CUT_RE[-1]`. -/
def isHexLower (c : Char) : Bool :=
  c.isDigit || ('a' ≤ c && c ≤ 'f')

/-- Case-insensitive hexadecimal digit test, the character class
`[0-9A-Fa-f]` used by the identifier pattern in `Note.nnid_decode`. -/
def isHexAny (c : Char) : Bool :=
  c.isDigit || ('a' ≤ c && c ≤ 'f') || ('A' ≤ c && c ≤ 'F')

/-- Value of one hexadecimal digit character, as `int(_, 16)` assigns it. -/
def hexCharVal (c : Char) : Nat :=
  if c.isDigit then c.toNat - 48
  else if 'a' ≤ c && c ≤ 'f' then c.toNat - 87
  else c.toNat - 55

/-- The lower-case hexadecimal digit character for a value `< 16`,
as produced by Python's `'%x'` formatting. -/
def hexDigitChar (n : Nat) : Char :=
  Char.ofNat (if n < 10 then 48 + n else 87 + n)

/-- Little-endian base-16 digits of `n`, with explicit fuel so that the
definition is structurally recursive (fuel `n` always suffices). -/
def hexLEAux : Nat → Nat → List Nat
  | _, 0 => []
  | 0, _ + 1 => []
  | fuel + 1, n + 1 => (n + 1) % 16 :: hexLEAux fuel ((n + 1) / 16)

/-- Little-endian base-16 digits of `n` (empty for `0`). -/
def hexDigitsLE (n : Nat) : List Nat := hexLEAux n n

/-- Python `'%08x' % n`: big-endian lower-case hex digits of `n`,
left-padded with `'0'` to a minimum width of 8 (never truncated). -/
def fmt08x (n : Nat) : List Char :=
  let ds : List Nat := if n = 0 then [0] else (hexDigitsLE n).reverse
  (List.replicate (8 - ds.length) 0 ++ ds).map hexDigitChar

/-- Value of a big-endian string of hexadecimal digit characters,
as computed by `int(s, 16)`. -/
def hexValBE (cs : List Char) : Nat :=
  cs.foldl (fun a c => a * 16 + hexCharVal c) 0

/-! ## Dates

`PyDate` mirrors the fields of a `datetime.datetime` (all notes use
`tzinfo=TZ_UTC`, so the timezone is omitted). -/

structure PyDate where
  year : Nat
  month : Nat
  day : Nat
  hour : Nat
  minute : Nat
  second : Nat
  microsecond : Nat
deriving DecidableEq, Repr

/-- Gregorian leap-year test (as `calendar.isleap` / `datetime`). -/
def isLeap (y : Nat) : Bool :=
  (y % 4 = 0 && y % 100 ≠ 0) || y % 400 = 0

/-- Number of days of month `m` in year `y`. -/
def daysInMonth (y m : Nat) : Nat :=
  if m = 2 then (if isLeap y then 29 else 28)
  else if m = 4 || m = 6 || m = 9 || m = 11 then 30
  else 31

/-- The constraints enforced by the `datetime.datetime` constructor;
constructing a date outside them raises `ValueError`. -/
def validDate (d : PyDate) : Bool :=
  1 ≤ d.year && d.year ≤ 9999 &&
  1 ≤ d.month && d.month ≤ 12 &&
  1 ≤ d.day && d.day ≤ daysInMonth d.year d.month &&
  d.hour < 24 && d.minute < 60 && d.second < 60 &&
  d.microsecond < 1000000

/-! ## The identity codec (`note.py`, class `Note`) -/

/-- `Note.head_encode`: pack `(year, month, day, hour)` into one integer
with mixed radices 12/31/24 (month and day stored zero-based). -/
def head_encode (d : PyDate) : Nat :=
  ((d.year * 12 + d.month - 1) * 31 + d.day - 1) * 24 + d.hour

/-- `Note.head_decode`: unpack `(year, month, day, hour)`. -/
def head_decode (head : Nat) : Nat × Nat × Nat × Nat :=
  let hour := head % 24
  let head := head / 24
  let day := head % 31 + 1
  let head := head / 31
  let month := head % 12 + 1
  let year := head / 12
  (year, month, day, hour)

/-- `Note.tail_encode`: pack `(minute, second, microsecond)` with mixed
radices 60/10^6. -/
def tail_encode (d : PyDate) : Nat :=
  (d.minute * 60 + d.second) * 10 ^ 6 + d.microsecond

/-- `Note.tail_decode`: unpack `(minute, second, microsecond)`. -/
def tail_decode (tail : Nat) : Nat × Nat × Nat :=
  let microsecond := tail % 10 ^ 6
  let second := tail / 10 ^ 6 % 60
  let minute := tail / 10 ^ 6 / 60
  (minute, second, microsecond)

/-- `Note.nnid_encode` / `Note.filename`: the textual identifier
`'%08x-%08x-%08x' % (head, tail, rand)`. -/
def nnid_encode (d : PyDate) (rand : Nat) : String :=
  String.mk (fmt08x (head_encode d) ++ ('-' :: (fmt08x (tail_encode d) ++ ('-' :: fmt08x rand))))

/-- Failure modes of `Note.nnid_decode`: `malformed` models the
`ArgumentTypeError` raised when the identifier regular expression does not
match (`MalformedIdentity` in the specification); `badDate` models the
`ValueError` escaping from the `datetime` constructor when the decoded
fields do not form a real calendar date. -/
inductive DecodeErr
  | malformed
  | badDate
deriving DecidableEq, Repr

/-- Match `^([0-9A-Fa-f]{8})-([0-9A-Fa-f]{8})-([0-9A-Fa-f]{8})$` and
return the three digit groups: the string must consist of exactly three
8-digit case-insensitive hexadecimal groups joined by `'-'`. -/
def nnidGroups (cs : List Char) : Option (List Char × List Char × List Char) :=
  let h := cs.take 8
  let t := (cs.drop 9).take 8
  let r := cs.drop 18
  if cs.length = 26 && (cs.drop 8).head? = some '-' && (cs.drop 17).head? = some '-'
      && h.all isHexAny && t.all isHexAny && r.all isHexAny then
    some (h, t, r)
  else none

/-- `Note.nnid_decode`: parse the identifier, unpack both halves and
construct the `datetime` (whose constructor validates the fields). -/
def nnid_decode (s : String) : Except DecodeErr (PyDate × Nat) :=
  match nnidGroups s.toList with
  | none => .error .malformed
  | some (h, t, r) =>
    let (year, month, day, hour) := head_decode (hexValBE h)
    let (minute, second, microsecond) := tail_decode (hexValBE t)
    let d : PyDate := ⟨year, month, day, hour, minute, second, microsecond⟩
    if validDate d then .ok (d, hexValBE r) else .error .badDate

/-- The well-formed identifier pattern of the external interface:
`^[0-9A-Fa-f]{8}-[0-9A-Fa-f]{8}-[0-9A-Fa-f]{8}$`. -/
def nnidWellFormed (s : String) : Bool :=
  (nnidGroups s.toList).isSome

/-! ## Round-trip lemmas for the hexadecimal formatting -/

/-- Value of a little-endian digit string. -/
def valLE (ds : List Nat) : Nat := ds.foldr (fun d a => d + 16 * a) 0

/-- Value of a big-endian digit string. -/
def valBE (ds : List Nat) : Nat := ds.foldl (fun a d => a * 16 + d) 0

theorem valLE_hexLEAux : ∀ fuel n, n ≤ fuel → valLE (hexLEAux fuel n) = n := by
  intro fuel
  induction fuel with
  | zero =>
    intro n hn
    interval_cases n
    rfl
  | succ fuel ih =>
    intro n hn
    cases n with
    | zero => rfl
    | succ m =>
      have hlt : (m + 1) / 16 < m + 1 := Nat.div_lt_self (Nat.succ_pos m) (by norm_num)
      have hle : (m + 1) / 16 ≤ fuel := by omega
      show valLE ((m + 1) % 16 :: hexLEAux fuel ((m + 1) / 16)) = m + 1
      have : valLE ((m + 1) % 16 :: hexLEAux fuel ((m + 1) / 16))
          = (m + 1) % 16 + 16 * valLE (hexLEAux fuel ((m + 1) / 16)) := rfl
      rw [this, ih _ hle, Nat.mod_add_div]

theorem hexLEAux_digits_lt : ∀ fuel n d, d ∈ hexLEAux fuel n → d < 16 := by
  intro fuel
  induction fuel with
  | zero =>
    intro n d hd
    cases n <;> simp [hexLEAux] at hd
  | succ fuel ih =>
    intro n d hd
    cases n with
    | zero => simp [hexLEAux] at hd
    | succ m =>
      simp only [hexLEAux, List.mem_cons] at hd
      rcases hd with h | h
      · subst h; exact Nat.mod_lt _ (by norm_num)
      · exact ih _ _ h

theorem hexLEAux_length_le : ∀ fuel n k, n < 16 ^ k → (hexLEAux fuel n).length ≤ k := by
  intro fuel
  induction fuel with
  | zero =>
    intro n k _
    cases n <;> simp [hexLEAux]
  | succ fuel ih =>
    intro n k hn
    cases n with
    | zero => simp [hexLEAux]
    | succ m =>
      cases k with
      | zero => simp at hn
      | succ k =>
        have hdiv : (m + 1) / 16 < 16 ^ k := by
          rw [Nat.div_lt_iff_lt_mul (by norm_num : 0 < 16)]
          calc m + 1 < 16 ^ (k + 1) := hn
            _ = 16 ^ k * 16 := by ring
        simp only [hexLEAux, List.length_cons]
        exact Nat.succ_le_succ (ih _ _ hdiv)

theorem hexCharVal_hexDigitChar : ∀ d, d < 16 → hexCharVal (hexDigitChar d) = d := by
  decide

theorem isHexAny_hexDigitChar : ∀ d, d < 16 → isHexAny (hexDigitChar d) = true := by
  decide

theorem isHexLower_hexDigitChar : ∀ d, d < 16 → isHexLower (hexDigitChar d) = true := by
  decide

theorem valBE_eq_valLE_reverse (ds : List Nat) : valBE ds.reverse = valLE ds := by
  rw [valBE, List.foldl_reverse]
  induction ds with
  | nil => rfl
  | cons d ds ih =>
    simp only [List.foldr_cons]
    rw [ih]
    have h2 : valLE (d :: ds) = d + 16 * valLE ds := rfl
    rw [h2]
    ring

theorem valBE_replicate_zero_append (k : Nat) (ds : List Nat) :
    valBE (List.replicate k 0 ++ ds) = valBE ds := by
  induction k with
  | zero => rfl
  | succ k ih =>
    show valBE (0 :: (List.replicate k 0 ++ ds)) = valBE ds
    rw [← ih]
    rfl

theorem hexValBE_map_hexDigitChar (ds : List Nat) (h : ∀ d ∈ ds, d < 16) :
    hexValBE (ds.map hexDigitChar) = valBE ds := by
  rw [hexValBE, valBE, List.foldl_map]
  exact List.foldl_ext _ _ 0 fun a d hd => by rw [hexCharVal_hexDigitChar d (h d hd)]

/-- `'%08x'` formatting recovers its input under `int(_, 16)`. -/
theorem hexValBE_fmt08x (n : Nat) : hexValBE (fmt08x n) = n := by
  rw [fmt08x]
  by_cases h0 : n = 0
  · subst h0; rfl
  · simp only [h0, if_false]
    have hdig : ∀ d ∈ (hexDigitsLE n).reverse, d < 16 := fun d hd =>
      hexLEAux_digits_lt n n d (List.mem_reverse.mp hd)
    have hall : ∀ d ∈ List.replicate (8 - (hexDigitsLE n).reverse.length) 0
        ++ (hexDigitsLE n).reverse, d < 16 := by
      intro d hd
      rcases List.mem_append.mp hd with h | h
      · have := List.eq_of_mem_replicate h; omega
      · exact hdig d h
    rw [hexValBE_map_hexDigitChar _ hall, valBE_replicate_zero_append,
      valBE_eq_valLE_reverse, hexDigitsLE, valLE_hexLEAux n n le_rfl]

theorem fmt08x_length (n : Nat) (h : n < 16 ^ 8) : (fmt08x n).length = 8 := by
  rw [fmt08x]
  by_cases h0 : n = 0
  · subst h0; rfl
  · simp only [h0, if_false, List.length_map, List.length_append,
      List.length_replicate]
    have : (hexDigitsLE n).length ≤ 8 := hexLEAux_length_le n n 8 h
    rw [List.length_reverse]
    omega

/-- Every character produced by `fmt08x` is drawn from `hexDigitChar`. -/
theorem fmt08x_mem (n : Nat) (c : Char) (hc : c ∈ fmt08x n) :
    ∃ d, d < 16 ∧ c = hexDigitChar d := by
  simp only [fmt08x] at hc
  rw [List.mem_map] at hc
  obtain ⟨d, hd, rfl⟩ := hc
  refine ⟨d, ?_, rfl⟩
  rcases List.mem_append.mp hd with h | h
  · have := List.eq_of_mem_replicate h
    omega
  · split at h
    · simp only [List.mem_singleton] at h
      omega
    · exact hexLEAux_digits_lt n n d (List.mem_reverse.mp h)

theorem fmt08x_all_isHexAny (n : Nat) : (fmt08x n).all isHexAny = true := by
  rw [List.all_eq_true]
  intro c hc
  obtain ⟨d, hd, rfl⟩ := fmt08x_mem n c hc
  exact isHexAny_hexDigitChar d hd

theorem fmt08x_all_isHexLower (n : Nat) : (fmt08x n).all isHexLower = true := by
  rw [List.all_eq_true]
  intro c hc
  obtain ⟨d, hd, rfl⟩ := fmt08x_mem n c hc
  exact isHexLower_hexDigitChar d hd

/-! ## Arithmetic round-trip of the mixed-radix packing -/

theorem head_decode_head_encode (d : PyDate)
    (hm1 : 1 ≤ d.month) (hm2 : d.month ≤ 12)
    (hd1 : 1 ≤ d.day) (hd2 : d.day ≤ 31) (hh : d.hour < 24) :
    head_decode (head_encode d) = (d.year, d.month, d.day, d.hour) := by
  simp only [head_encode, head_decode, Prod.mk.injEq]
  refine ⟨?_, ?_, ?_, ?_⟩ <;> omega

theorem tail_decode_tail_encode (d : PyDate)
    (hs : d.second < 60) (hu : d.microsecond < 1000000) :
    tail_decode (tail_encode d) = (d.minute, d.second, d.microsecond) := by
  have hp : (10 : Nat) ^ 6 = 1000000 := by norm_num
  simp only [tail_encode, tail_decode, hp, Prod.mk.injEq]
  refine ⟨?_, ?_, ?_⟩ <;> omega

/-- Bound on the head packing for any year the `datetime` type can hold. -/
theorem head_encode_lt (d : PyDate) (hy : d.year ≤ 9999)
    (hm : d.month ≤ 12) (hd : d.day ≤ 31) (hh : d.hour < 24) :
    head_encode d < 16 ^ 8 := by
  have hp : (16 : Nat) ^ 8 = 4294967296 := by norm_num
  rw [head_encode, hp]
  omega

theorem tail_encode_lt (d : PyDate) (hm : d.minute < 60)
    (hs : d.second < 60) (hu : d.microsecond < 1000000) :
    tail_encode d < 16 ^ 8 := by
  have hp : (16 : Nat) ^ 8 = 4294967296 := by norm_num
  have hp6 : (10 : Nat) ^ 6 = 1000000 := by norm_num
  rw [tail_encode, hp, hp6]
  omega

/-- The identifier pattern accepts a string made of three 8-digit
hexadecimal groups joined by dashes, and splits it into those groups. -/
theorem nnidGroups_append (A B C : List Char)
    (hA : A.length = 8) (hB : B.length = 8) (hC : C.length = 8)
    (haA : A.all isHexAny = true) (haB : B.all isHexAny = true)
    (haC : C.all isHexAny = true) :
    nnidGroups (A ++ ('-' :: (B ++ ('-' :: C)))) = some (A, B, C) := by
  have h8 : (A ++ ('-' :: (B ++ ('-' :: C)))).drop 8 = '-' :: (B ++ ('-' :: C)) :=
    List.drop_left' hA
  have h9 : (A ++ ('-' :: (B ++ ('-' :: C)))).drop 9 = B ++ ('-' :: C) := by
    rw [show (9 : Nat) = 8 + 1 from rfl, ← List.drop_drop, h8]
    rfl
  have h17 : (A ++ ('-' :: (B ++ ('-' :: C)))).drop 17 = '-' :: C := by
    rw [show (17 : Nat) = 9 + 8 from rfl, ← List.drop_drop, h9, List.drop_left' hB]
  have h18 : (A ++ ('-' :: (B ++ ('-' :: C)))).drop 18 = C := by
    rw [show (18 : Nat) = 17 + 1 from rfl, ← List.drop_drop, h17]
    rfl
  have hlen : (A ++ ('-' :: (B ++ ('-' :: C)))).length = 26 := by
    simp [List.length_append, hA, hB, hC]
  simp only [nnidGroups, List.take_left' hA, h8, h9, h17, h18, hlen,
    List.take_left' hB, haA, haB, haC, List.head?_cons]
  rfl

/-! ## C1: the identifier round-trip -/

/-- C1. For every timestamp with microsecond precision within the codec's
representable range (any valid `datetime`, whose year is at most 9999,
packs into 8 hex digits) and every 32-bit nonce, decoding the encoded
identifier recovers exactly the original date (all seven fields) and the
same nonce. -/
theorem C1_nnid_roundtrip (d : PyDate) (r : Nat)
    (hd : validDate d = true) (hr : r < 2 ^ 32) :
    nnid_decode (nnid_encode d r) = .ok (d, r) := by
  have hv := hd
  rw [validDate] at hv
  simp only [Bool.and_eq_true, decide_eq_true_eq] at hv
  obtain ⟨⟨⟨⟨⟨⟨⟨⟨⟨hy1, hy2⟩, hm1⟩, hm2⟩, hd1⟩, hd2⟩, hh⟩, hmin⟩, hsec⟩, hus⟩
    := hv
  have hdm : daysInMonth d.year d.month ≤ 31 := by
    rw [daysInMonth]
    split
    · split <;> omega
    · split <;> omega
  have hd31 : d.day ≤ 31 := le_trans hd2 hdm
  have hhead : head_encode d < 16 ^ 8 := head_encode_lt d hy2 hm2 hd31 hh
  have htail : tail_encode d < 16 ^ 8 := tail_encode_lt d hmin hsec hus
  have hr16 : r < 16 ^ 8 := by
    have : (2 : Nat) ^ 32 = 16 ^ 8 := by norm_num
    omega
  -- the encoded character list and its group structure
  have hlist : (nnid_encode d r).toList
      = fmt08x (head_encode d)
        ++ ('-' :: (fmt08x (tail_encode d) ++ ('-' :: fmt08x r))) := rfl
  have hlenH := fmt08x_length _ hhead
  have hlenT := fmt08x_length _ htail
  have hlenR := fmt08x_length _ hr16
  have hgroups : nnidGroups (nnid_encode d r).toList
      = some (fmt08x (head_encode d), fmt08x (tail_encode d), fmt08x r) := by
    rw [hlist]
    exact nnidGroups_append _ _ _ hlenH hlenT hlenR (fmt08x_all_isHexAny _)
      (fmt08x_all_isHexAny _) (fmt08x_all_isHexAny _)
  rw [nnid_decode, hgroups]
  simp only [hexValBE_fmt08x]
  rw [head_decode_head_encode d hm1 hm2 hd1 hd31 hh,
    tail_decode_tail_encode d hsec hus]
  simp only
  have hdeq : (⟨d.year, d.month, d.day, d.hour, d.minute, d.second, d.microsecond⟩ : PyDate)
      = d := rfl
  rw [hdeq, hd]
  rfl

/-- Witness for C1 at a concrete timestamp and nonce. -/
theorem C1_nnid_roundtrip_witness :
    validDate ⟨2017, 12, 27, 2, 30, 45, 123456⟩ = true ∧
    nnid_decode (nnid_encode ⟨2017, 12, 27, 2, 30, 45, 123456⟩ 0xdeadbeef)
      = .ok (⟨2017, 12, 27, 2, 30, 45, 123456⟩, 0xdeadbeef) :=
  ⟨by decide, C1_nnid_roundtrip ⟨2017, 12, 27, 2, 30, 45, 123456⟩ 0xdeadbeef
    (by decide) (by decide)⟩

/-! ## C10: well-formed identifiers whose decoding fails

`head_decode` always returns a day in `1..31` and a month in `1..12`, so
a head value can name a nonexistent calendar date (day 30 of February);
the `datetime` constructor then raises a `ValueError`, which is not the
`MalformedIdentity` error.  `0x01107ba0 = ((2000*12 + 1)*31 + 29)*24`
encodes 2000-02-30T00. -/

/-- C10. There are identifier strings matching the well-formed identifier
pattern (three 8-hex-digit groups) on which `nnid_decode` nevertheless
fails: `01107ba0-00000000-00000000` matches the pattern, its head decodes
to the nonexistent date 2000-02-30, and decoding fails with the
`ValueError`-style error rather than `MalformedIdentity`.  Decoding of
well-formed identifiers is therefore not total. -/
theorem C10_wellformed_decode_fails :
    nnidWellFormed "01107ba0-00000000-00000000" = true ∧
    head_decode 0x01107ba0 = (2000, 2, 30, 0) ∧
    nnid_decode "01107ba0-00000000-00000000" = .error .badDate ∧
    DecodeErr.badDate ≠ DecodeErr.malformed := by
  refine ⟨by decide, by decide, rfl, by decide⟩

/-! ## Python string ordering and decimal formatting

Python compares strings lexicographically by code point; `list.sort()`
uses this order, ascending and stable. -/

/-- Lexicographic strict order on character lists by code point. -/
def listCharLt : List Char → List Char → Bool
  | [], [] => false
  | [], _ :: _ => true
  | _ :: _, [] => false
  | a :: as, b :: bs =>
    if a < b then true else if b < a then false else listCharLt as bs

/-- Python's `<` on strings. -/
def pyStrLt (a b : String) : Bool := listCharLt a.toList b.toList

/-- Python's `<=` on strings. -/
def pyStrLe (a b : String) : Bool := !pyStrLt b a

/-- Value of a big-endian decimal digit string, as `int(s)` computes it
for strings of ASCII digits. -/
def decVal (cs : List Char) : Nat :=
  cs.foldl (fun a c => a * 10 + (c.toNat - 48)) 0

/-- Little-endian base-10 digits with explicit fuel (fuel `n` suffices). -/
def decLEAux : Nat → Nat → List Nat
  | _, 0 => []
  | 0, _ + 1 => []
  | fuel + 1, n + 1 => (n + 1) % 10 :: decLEAux fuel ((n + 1) / 10)

/-- The decimal digit character for a value `< 10`. -/
def decDigitChar (n : Nat) : Char := Char.ofNat (48 + n)

/-- Python `'%0wd' % n`: decimal digits of `n` left-padded with `'0'` to a
minimum width of `w`. -/
def fmtDec (w n : Nat) : String :=
  let ds : List Nat := if n = 0 then [0] else (decLEAux n n).reverse
  String.mk ((List.replicate (w - ds.length) 0 ++ ds).map decDigitChar)

/-- `^\d{w}$`: exactly `w` ASCII digits. -/
def isDigits (w : Nat) (s : String) : Bool :=
  s.length = w && s.toList.all (·.isDigit)

/-! ## Path mapping (`note.py`: `Note.dirname`, `Note.realpath`,
`Note.absolute_path_to_note`)

Paths are modelled as lists of components (what `os.path.join` joins
with `/`; no component produced here contains a slash).  `NOTE_DIR` is
the store root from the environment, opaque to all claims, fixed here. -/

def NOTE_DIR : String := "/root/.note"

/-- `NOTE_CUT`: the configured directory depth.  The source default is 2
(group by year then month).  (The environment override `NOTE_CUT` would
arrive as a string and make `range(NOTE_CUT)` raise, so 2 is the value
the program actually runs with.) -/
def NOTE_CUT : Nat := 2

/-- `NOTE_CUT_LABEL` from `note_layout.py` — note that `hour` is absent:
after `day` the next label is `minute`. -/
def NOTE_CUT_LABEL : List String :=
  ["year", "month", "day", "minute", "second", "microsecond", "note"]

/-- Widths of the `NOTE_CUT_FMT` decimal formats `%04d, %02d, ...`. -/
def NOTE_CUT_FMT_width : List Nat := [4, 2, 2, 2, 2, 6]

/-- `getattr(date, field)` for the datetime field names used here. -/
def pyGetattr (d : PyDate) (field : String) : Nat :=
  if field = "year" then d.year
  else if field = "month" then d.month
  else if field = "day" then d.day
  else if field = "hour" then d.hour
  else if field = "minute" then d.minute
  else if field = "second" then d.second
  else d.microsecond

/-- `Note.dirname`: `[NOTE_DIR]` followed by one zero-padded component per
cut level, taken from `NOTE_CUT_LABEL`/`NOTE_CUT_FMT`. -/
def dirname (d : PyDate) : List String :=
  NOTE_DIR :: (List.range NOTE_CUT).map (fun level =>
    fmtDec (NOTE_CUT_FMT_width.getD level 0) (pyGetattr d (NOTE_CUT_LABEL.getD level "")))

/-- `Note.filename`: the bare identifier (no extension). -/
def filename (d : PyDate) (rand : Nat) : String := nnid_encode d rand

/-- `Note.realpath`: directory components plus filename. -/
def realpath (d : PyDate) (rand : Nat) : List String := dirname d ++ [filename d rand]

/-- Failure modes of `Note.absolute_path_to_note`: `noMatch` models the
`ArgumentTypeError` for a path the hard-coded pattern does not match;
`assertFail` models the `assert match.group('type') == '.txt'` failing;
`badDateP` models a `ValueError` from the `datetime` constructor. -/
inductive PathErr
  | noMatch
  | assertFail
  | badDateP
deriving DecidableEq, Repr

/-- Match `(hex8)-(hex8)(\S*)` against a filename, returning the
`tail`, `rand` and `type` groups (the groups are fixed-width, so the
match is deterministic). -/
def leafTailMatch (cs : List Char) : Option (List Char × List Char × List Char) :=
  let t := cs.take 8
  let r := (cs.drop 9).take 8
  let ty := cs.drop 17
  if t.length = 8 && t.all isHexAny && (cs.drop 8).head? = some '-'
      && r.length = 8 && r.all isHexAny && ty.all (fun c => !c.isWhitespace) then
    some (t, r, ty)
  else none

/-- `Note.absolute_path_to_note`: matches the hard-coded pattern
`NOTE_DIR/(\d{4})/(\d{2})/(\d{2})/(\d{2})/(hex8)-(hex8)(\S*)` — four
directory levels and a two-group filename — asserts the type is `.txt`,
and rebuilds the date from the directory components plus the decoded
tail.  (Paths are compared component-wise; no component of a note path
contains a slash or whitespace.) -/
def absolute_path_to_note (path : List String) : Except PathErr (PyDate × Nat) :=
  match path with
  | [nd, y, mo, dy, hr, f] =>
    if nd = NOTE_DIR && isDigits 4 y && isDigits 2 mo && isDigits 2 dy
        && isDigits 2 hr then
      match leafTailMatch f.toList with
      | none => .error .noMatch
      | some (t, r, ty) =>
        if ty = ".txt".toList then
          let (minute, second, microsecond) := tail_decode (hexValBE t)
          let d : PyDate := ⟨decVal y.toList, decVal mo.toList, decVal dy.toList,
            decVal hr.toList, minute, second, microsecond⟩
          if validDate d then .ok (d, hexValBE r) else .error .badDateP
        else .error .assertFail
    else .error .noMatch
  | _ => .error .noMatch

/-! ## C2: the path round-trip

`realpath` produces `NOTE_DIR` plus `NOTE_CUT = 2` directory components
plus a three-group extensionless filename — 4 components in all — while
`absolute_path_to_note` requires exactly 6 (four date directories and a
filename).  The round-trip therefore fails for every note. -/

/-- C2 (evaluation of the defect).  For every note — any date and nonce
whatsoever, hence every configured note — decoding the path produced by
`realpath` fails with the no-match error instead of returning the note's
identity: `absolute_path_to_note` expects a four-level year/month/day/hour
hierarchy and a two-group filename, which `dirname`/`filename` never
produce. -/
theorem C2_path_roundtrip_fails (d : PyDate) (r : Nat) :
    absolute_path_to_note (realpath d r) = .error .noMatch := rfl

/-! ## The range-spec mini-language (`NoteIterator.argparse_range`) -/

/-- Errors from `argparse_range`: `invalidRange` models its
`ArgumentTypeError` (`InvalidRangeSyntax`); `valueError` models an
uncaught `ValueError` escaping from `int()` on a non-numeric string. -/
inductive RangeErr
  | invalidRange
  | valueError
deriving DecidableEq, Repr

/-- Auxiliary for `pySplitOn`: split a character list at a separator
(structurally recursive, unlike `String.splitOn`). -/
def splitCharAux (sep : Char) : List Char → List Char → List (List Char)
  | [], acc => [acc.reverse]
  | c :: rest, acc =>
    if c = sep then acc.reverse :: splitCharAux sep rest []
    else splitCharAux sep rest (c :: acc)

/-- Python `s.split(sep)` for a one-character separator: `""` yields
`[""]`, and adjacent/trailing separators yield empty items. -/
def pySplitOn (sep : Char) (s : String) : List String :=
  (splitCharAux sep s.toList []).map String.mk

/-- Shape of one `\d+(-\d+)?` chunk. -/
def itemShape (cs : List Char) : Bool :=
  let ds := cs.takeWhile (·.isDigit)
  let rest := cs.dropWhile (·.isDigit)
  !ds.isEmpty &&
    (rest.isEmpty ||
      (rest.head? = some '-' && !rest.tail.isEmpty && rest.tail.all (·.isDigit)))

/-- The language of `re.match(r'((^|,)\d+(-\d+)?)+$', arg)`: an optional
leading comma (the `(^|,)` alternation can consume a comma at position 0)
followed by `\d+(-\d+)?` chunks separated by commas.  (ASCII digits;
Python's `$`-before-trailing-newline and Unicode-digit quirks are outside
the modelled character set.) -/
def rangeRegexOk (s : String) : Bool :=
  match pySplitOn ',' s with
  | [] => false
  | first :: rest =>
    (itemShape first.toList || (first = "" && !rest.isEmpty)) &&
    rest.all (fun it => itemShape it.toList)

/-- `int(s)` on the strings produced by splitting: succeeds exactly on
nonempty all-digit strings, otherwise raises `ValueError`. -/
def pyInt (s : String) : Except RangeErr Nat :=
  if !s.toList.isEmpty && s.toList.all (·.isDigit) then .ok (decVal s.toList)
  else .error .valueError

/-- One item of the range list: split on `-`, duplicate a singleton, then
compare the two bound **strings** (this is the source's `pair[0] > pair[1]`
— a string comparison, the integer conversion happens after it). -/
def rangeItem (item : String) : Except RangeErr (Nat × Nat) :=
  let pair := pySplitOn '-' item
  let p0 := pair.headD ""
  let p1 := if pair.length = 1 then p0 else pair.getD 1 ""
  if pyStrLt p1 p0 then .error .invalidRange
  else do
    let a ← pyInt p0
    let b ← pyInt p1
    return (a, b)

/-- Python tuple comparison `(a, b) <= (c, d)`, used by `list.sort()`. -/
def pairLeB (a b : Nat × Nat) : Bool :=
  a.1 < b.1 || (a.1 = b.1 && a.2 ≤ b.2)

/-- `NoteIterator.argparse_range`: regex check, per-item parse, sort. -/
def argparse_range (arg : String) : Except RangeErr (List (Nat × Nat)) :=
  if rangeRegexOk arg then do
    let result ← (pySplitOn ',' arg).mapM rangeItem
    return result.insertionSort (fun a b => pairLeB a b = true)
  else .error .invalidRange

/-! ## C7: evaluating `argparse_range`

The bound comparison is performed on the *strings*, so `"2-10"` (a
well-formed range with `min <= max`) is rejected — `'2' > '1'` makes
`"2" > "10"` — while `"10-9"` (malformed, `min > max`) is accepted. -/

/-- C7 (evaluation of the defect).  `argparse_range` rejects the
well-formed range `2-10` with `InvalidRangeSyntax`, accepts the
malformed range `10-9` as `(10, 9)`, and parses the documentation's own
example `1-2,5,6-8` into sorted inclusive ranges. -/
theorem C7_argparse_range_eval :
    argparse_range "2-10" = .error .invalidRange ∧
    argparse_range "10-9" = .ok [(10, 9)] ∧
    argparse_range "1-2,5,6-8" = .ok [(1, 2), (5, 5), (6, 8)] := by
  refine ⟨by decide, by decide, by decide⟩

/-! ## The attribute filter classifier (`NoteIterator.parse_attributes`) -/

/-- A `NoteAttribute`: a key with an optional value. -/
structure NoteAttr where
  key : String
  value : Option String
deriving DecidableEq, Repr

/-- Python truthiness of an optional string (`None` and `''` are falsy). -/
def truthyOptStr : Option String → Bool
  | none => false
  | some s => !s.isEmpty

/-- Construction-time iterator errors: `invalidFilter` models the
`ArgumentTypeError` raised in `parse_attributes` for a value attached to
an extension filter (`InvalidFilterSyntax`). -/
inductive IterErr
  | invalidFilter
deriving DecidableEq, Repr

/-- Loop body of `parse_attributes`: dotted keys go to the extension set
(`set.add` deduplicates), every other attribute goes to the metadata set
(attribute objects hash by identity, so the insertion order list models
it). -/
def parseAttrsGo (exts : List String) (meta : List NoteAttr) :
    List NoteAttr → Except IterErr (List String × List NoteAttr)
  | [] => .ok (exts, meta)
  | a :: rest =>
    if a.key.front = '.' then
      if truthyOptStr a.value then .error .invalidFilter
      else parseAttrsGo (if a.key ∈ exts then exts else exts ++ [a.key]) meta rest
    else parseAttrsGo exts (meta ++ [a]) rest

/-- `NoteIterator.parse_attributes`: divide attributes into extension
filters (keys beginning with `.`, which must carry no value) and
metadata filters. -/
def parse_attributes (attributes : Option (List NoteAttr)) :
    Except IterErr (List String × List NoteAttr) :=
  parseAttrsGo [] [] (attributes.getD [])

/-! ## Notes, metadata and the external world

The traversal engine's effects — `os.listdir`, unpickling a metadata
file, opening a note's text files — are modelled by an `Oracles` record
(the filesystem as an injected capability).  A compiled `re` pattern is
modelled as an abstract line predicate. -/

/-- A note: identity plus the set of filename extensions found for it
(`Note.exts`; the merged leaf entries carry a Python `set`, modelled as
an insertion-ordered deduplicated list). -/
structure Note where
  date : PyDate
  rand : Nat
  exts : List String
deriving DecidableEq, Repr

structure Oracles where
  /-- `os.listdir(path)` on a component path; `none` models
  `FileNotFoundError`. -/
  listdir : List String → Option (List String)
  /-- The unpickled metadata dictionary stored at a note's `realpath`
  (unreadable or missing files unpickle to the empty dict in the source,
  so the oracle is total). -/
  metaOf : List String → List (String × Option String)
  /-- The lines of the text file at `realpath + ext`; `none` models a
  missing file (`FileNotFoundError` escaping from `open`). -/
  fileLines : List String → String → Option (List String)

/-- First-match lookup in a metadata dictionary. -/
def dictLookup (dict : List (String × Option String)) (k : String) :
    Option (Option String) :=
  match dict with
  | [] => none
  | (k2, v) :: rest => if k2 = k then some v else dictLookup rest k

/-- `NoteMetadata.select_attribute`: true when the key is stored and,
if the filter carries a (truthy) value, the stored value equals it. -/
def select_attribute (dict : List (String × Option String)) (attr : NoteAttr) : Bool :=
  match dictLookup dict attr.key with
  | none => false
  | some stored =>
    if truthyOptStr attr.value then decide (stored = attr.value) else true

/-- `datetime` comparison (both operands UTC): lexicographic on the
seven fields, equality being field-wise equality. -/
def dateLt (a b : PyDate) : Bool :=
  if a.year ≠ b.year then decide (a.year < b.year)
  else if a.month ≠ b.month then decide (a.month < b.month)
  else if a.day ≠ b.day then decide (a.day < b.day)
  else if a.hour ≠ b.hour then decide (a.hour < b.hour)
  else if a.minute ≠ b.minute then decide (a.minute < b.minute)
  else if a.second ≠ b.second then decide (a.second < b.second)
  else decide (a.microsecond < b.microsecond)

/-! ## Iterator configuration (`NoteIterator.__init__`) -/

/-- The iterator's state after construction (the parts that do not
change during traversal).  `since`/`until` are `Note` objects as in the
source (their `exts` are never consulted). -/
structure IterCfg where
  since : Option Note
  until' : Option Note
  reverse : Bool
  index_set : Option (List (Nat × Nat))
  index_max : Option Nat
  select_extensions : List String
  select_attributes : List NoteAttr
  exclude_extensions : List String
  exclude_attributes : List NoteAttr
  grep : Option (String → Bool)

/-- The `self.index_max` derivation in `__init__`: a truthy (nonempty)
`index_set` seeds the cap with the last range's upper bound, then a
truthy (nonzero) `index_max` argument lowers it; otherwise the argument
is used as given. -/
def derivedIndexMax (index_set : Option (List (Nat × Nat)))
    (index_max : Option Nat) : Option Nat :=
  match index_set with
  | some s =>
    if !s.isEmpty then
      some (match index_max with
        | some c => if c ≠ 0 then min (s.getLastD (0, 0)).2 c else (s.getLastD (0, 0)).2
        | none => (s.getLastD (0, 0)).2)
    else index_max
  | none => index_max

/-- `NoteIterator.__init__`: parse both attribute lists (surfacing
`InvalidFilterSyntax` at construction time) and derive the index cap. -/
def mkIterator (since until' : Option Note) (reverse : Bool)
    (index_set : Option (List (Nat × Nat))) (index_max : Option Nat)
    (select exclude : Option (List NoteAttr)) (grep : Option (String → Bool)) :
    Except IterErr IterCfg := do
  let (se, sa) ← parse_attributes select
  let (ee, ea) ← parse_attributes exclude
  return { since := since, until' := until', reverse := reverse,
           index_set := index_set,
           index_max := derivedIndexMax index_set index_max,
           select_extensions := se, select_attributes := sa,
           exclude_extensions := ee, exclude_attributes := ea, grep := grep }

/-! ## Cursor dates and pruning (`cursor_date` / `crop_date` /
`valid_cursor`)

`CURSOR_LABEL = ['root'] + NOTE_CUT_LABEL`, so levels 1, 2, 3, 4, ... of
the cursor map to `year`, `month`, `day`, `minute`, ... — `hour` is not
among the labels, and both functions always leave `hour` at 0. -/

def CURSOR_LABEL : List String := "root" :: NOTE_CUT_LABEL

/-- Write one named `datetime` field. -/
def setField (p : PyDate) (field : String) (v : Nat) : PyDate :=
  if field = "year" then { p with year := v }
  else if field = "month" then { p with month := v }
  else if field = "day" then { p with day := v }
  else if field = "hour" then { p with hour := v }
  else if field = "minute" then { p with minute := v }
  else if field = "second" then { p with second := v }
  else if field = "microsecond" then { p with microsecond := v }
  else p

/-- The default parameter dict `{year: 1, month: 1, day: 1, hour: 0, ...}`
of `cursor_date`/`crop_date`. -/
def defaultParam : PyDate := ⟨1, 1, 1, 0, 0, 0, 0⟩

/-- Traversal-aborting exceptions: `decodeFail` models the uncaught
decode error escaping `find_note` for a corrupt leaf filename;
`badCursor` models the `ValueError` escaping from the `datetime`
constructor inside `cursor_date` when a digit-named directory carries an
out-of-range field value (a month directory `13`, a year directory
`0000`); `fileMissing` models `FileNotFoundError` escaping from `open`
in `valid_note_contents`. -/
inductive TravErr
  | decodeFail (nnid : String)
  | badCursor
  | fileMissing
deriving DecidableEq, Repr

/-- The parameter assembly of `NoteIterator.cursor_date`: parse cursor
components (levels `1..`) into their labelled fields over the defaults. -/
def cursorFields (cursor : List String) : PyDate :=
  (List.range' 1 (cursor.length - 1)).foldl
    (fun p level => setField p (CURSOR_LABEL.getD level "")
      (decVal (cursor.getD level "").toList))
    defaultParam

/-- `NoteIterator.cursor_date`: assemble the parameters and construct
the `datetime` — whose constructor validates every field and raises
`ValueError` (`badCursor`) when a directory name is out of range. -/
def cursor_date (cursor : List String) : Except TravErr PyDate :=
  let d := cursorFields cursor
  if validDate d then .ok d else .error .badCursor

/-- `NoteIterator.crop_date`: copy the bound's fields at levels
`1..depth-1` over the defaults (`date.replace(**param)` replaces every
field, so untouched fields reset to their minimum — including `hour`).
`replace` validates too, but every combination built here — a field
prefix of an already valid date over the minima — is again a valid
date, so this call never raises. -/
def crop_date (d : PyDate) (depth : Nat) : PyDate :=
  (List.range' 1 (depth - 1)).foldl
    (fun p level => setField p (CURSOR_LABEL.getD level "")
      (pyGetattr d (CURSOR_LABEL.getD level "")))
    defaultParam

/-- `NoteIterator.valid_cursor`: date-range pruning of a partial path.
The unconditional `cursor_date` call can abort the whole traversal with
`ValueError` — even when no bound is set. -/
def valid_cursor (cfg : IterCfg) (cursor : List String) : Except TravErr Bool := do
  let date ← cursor_date cursor
  return !((match cfg.since with
      | some s => dateLt date (crop_date s.date cursor.length)
      | none => false) ||
    (match cfg.until' with
      | some u => dateLt (crop_date u.date cursor.length) date
      | none => false))

/-! ## Leaf validity (`valid_note` / `valid_note_contents`) -/

/-- `NOTE_EXT_GREP`: the grep-able note extensions. -/
def NOTE_EXT_GREP : List String := [".txt", ".rst", ".mw"]

/-- `Note.extensions(grep=True)`: the note's extensions restricted to
the grep-able allow-list. -/
def extensionsGrep (n : Note) : List String :=
  n.exts.filter (fun ext => NOTE_EXT_GREP.contains ext)

/-- The date half of `valid_note` for the `since` bound. -/
def dateSinceOk (since : Option Note) (note : Note) : Bool :=
  match since with
  | none => true
  | some s =>
    !(dateLt note.date s.date) &&
    !(decide (note.date = s.date) && decide (note.rand < s.rand))

/-- The date half of `valid_note` for the `until` bound. -/
def dateUntilOk (until' : Option Note) (note : Note) : Bool :=
  match until' with
  | none => true
  | some u =>
    !(dateLt u.date note.date) &&
    !(decide (note.date = u.date) && decide (note.rand > u.rand))

/-- The extension narrowing `valid_note` applies to `note.exts`:
selection first (if any), then exclusion (if any). -/
def narrowedExts (cfg : IterCfg) (exts : List String) : List String :=
  let exts :=
    if !cfg.select_extensions.isEmpty then
      exts.filter (fun e => cfg.select_extensions.contains e)
    else exts
  if !cfg.exclude_extensions.isEmpty then
    exts.filter (fun e => !cfg.exclude_extensions.contains e)
  else exts

/-- The attribute-filter block of `valid_note`: with select filters, at
least one must match the note's metadata; with exclude filters, none may. -/
def attrsOk (cfg : IterCfg) (env : Oracles) (note : Note) : Bool :=
  let dict := env.metaOf (realpath note.date note.rand)
  (cfg.select_attributes.isEmpty
    || cfg.select_attributes.any (fun a => select_attribute dict a)) &&
  (cfg.exclude_attributes.isEmpty
    || !cfg.exclude_attributes.any (fun a => select_attribute dict a))

/-- The file loop of `valid_note_contents`: open each grep-able file in
turn and succeed on the first line matching the pattern anywhere. -/
def grepFiles (pat : String → Bool) (env : Oracles) (path : List String) :
    List String → Except TravErr Bool
  | [] => .ok false
  | ext :: rest =>
    match env.fileLines path ext with
    | none => .error .fileMissing
    | some lines =>
      if lines.any pat then .ok true
      else grepFiles pat env path rest

/-- `NoteIterator.valid_note_contents`: trivially true without a
pattern; otherwise scan the note's grep-able files. -/
def valid_note_contents (cfg : IterCfg) (env : Oracles) (n : Note) :
    Except TravErr Bool :=
  match cfg.grep with
  | some pat => grepFiles pat env (realpath n.date n.rand) (extensionsGrep n)
  | none => .ok true

/-- `NoteIterator.valid_note`: date filters, extension narrowing (the
source mutates `note.exts`; the possibly-narrowed note is returned),
attribute filters, then the content filter. -/
def valid_note (cfg : IterCfg) (env : Oracles) (note : Note) :
    Except TravErr (Bool × Note) :=
  if !dateSinceOk cfg.since note then .ok (false, note)
  else if !dateUntilOk cfg.until' note then .ok (false, note)
  else
    let note := { note with exts := narrowedExts cfg note.exts }
    if note.exts.isEmpty then .ok (false, note)
    else if !attrsOk cfg env note then .ok (false, note)
    else do
      let c ← valid_note_contents cfg env note
      return (c, note)

/-! ## Directory listings, sorting, leaf merging (`stack_push`) -/

/-- Python `list.sort()` on strings: stable ascending code-point order. -/
def sortStrings (l : List String) : List String :=
  l.insertionSort (fun a b => pyStrLe a b = true)

/-- `NOTE_CUT_RE[-1]`:
`^(?P<nnid>[0-9a-f]{8}-[0-9a-f]{8}-[0-9a-f]{8})(?P<ext>\.\S+)$`. -/
def matchLeaf (s : String) : Option (String × String) :=
  let cs := s.toList
  let nnid := cs.take 26
  let ext := cs.drop 26
  if nnid.length = 26 && (nnid.take 8).all isHexLower
      && (nnid.drop 8).head? = some '-' && ((nnid.drop 9).take 8).all isHexLower
      && (nnid.drop 17).head? = some '-' && (nnid.drop 18).all isHexLower
      && ext.head? = some '.' && decide (2 ≤ ext.length)
      && ext.tail.all (fun c => !c.isWhitespace) then
    some (String.mk nnid, String.mk ext)
  else none

/-- The merge loop of `stack_push` at the leaf level, after the current
group `(id, exts)` has been started: a following file with the same
identifier adds its extension to the group's set, a different identifier
closes the group. -/
def mergeAux (id : String) (exts : List String) :
    List (String × String) → List (String × List String)
  | [] => [(id, exts)]
  | (id2, e2) :: rest =>
    if id2 = id then mergeAux id (if e2 ∈ exts then exts else exts ++ [e2]) rest
    else (id, exts) :: mergeAux id2 [e2] rest

/-- Merge pattern-matched `(nnid, ext)` pairs of a sorted listing into
`(nnid, extension-set)` entries (adjacent equal identifiers collapse). -/
def mergeLeaves : List (String × String) → List (String × List String)
  | [] => []
  | (id, e) :: rest => mergeAux id [e] rest

/-- An intermediate level of `stack_push` in *pop order*: the sorted,
pattern-filtered listing is stored flipped for forward traversal and
popped from the tail, so entries are consumed in ascending order when
`reverse` is false and descending order otherwise.  `w` is the digit
width of the level's `NOTE_CUT_RE` pattern. -/
def dirEntries (env : Oracles) (cfg : IterCfg) (path : List String) (w : Nat) :
    List String :=
  let stack := sortStrings ((env.listdir path).getD [])
  let stack := stack.filter (isDigits w)
  if cfg.reverse then stack.reverse else stack

/-- The leaf level of `stack_push` in pop order: sorted listing,
pattern match and merge, direction flip. -/
def leafEntries (env : Oracles) (cfg : IterCfg) (path : List String) :
    List (String × List String) :=
  let stack := sortStrings ((env.listdir path).getD [])
  let comb := mergeLeaves (stack.filterMap matchLeaf)
  if cfg.reverse then comb.reverse else comb

/-! ## The traversal (`find_note`, iterated to exhaustion)

`find_note` drives a cursor/stack state machine whose pops and pushes
realize exactly a depth-first walk: descend into each popped directory
that passes `valid_cursor`, decode and validate each merged leaf entry,
ascend when a level is exhausted.  With the fixed cut depth 2 the walk
is root → years → months → leaves; the functions below are that walk as
structural recursion over the pop-order entry lists, returning the
sequence of notes the iterator yields.  A decode failure at a leaf is an
uncaught exception in the source and aborts the whole traversal — it is
modelled by the `Except` error short-circuiting everything after it. -/

/-- The leaf loop of `find_note`: pop each `(nnid, exts)` entry, decode
it (a failure aborts), validate, and yield the valid ones in order. -/
def crawlLeaves (cfg : IterCfg) (env : Oracles) :
    List (String × List String) → Except TravErr (List Note)
  | [] => .ok []
  | (nnid, exts) :: rest =>
    match nnid_decode nnid with
    | .error _ => .error (.decodeFail nnid)
    | .ok (d, r) => do
      let (keep, note) ← valid_note cfg env ⟨d, r, exts⟩
      let more ← crawlLeaves cfg env rest
      if keep then return note :: more else return more

/-- Month level of the walk: pop each month directory, run
`valid_cursor` on it (a `ValueError` there aborts everything), and
process the leaves of the directories that pass. -/
def crawlMonths (cfg : IterCfg) (env : Oracles) (y : String) :
    List String → Except TravErr (List Note)
  | [] => .ok []
  | m :: rest => do
    let keep ← valid_cursor cfg [NOTE_DIR, y, m]
    let here ←
      if keep then crawlLeaves cfg env (leafEntries env cfg [NOTE_DIR, y, m])
      else pure []
    let more ← crawlMonths cfg env y rest
    return here ++ more

/-- Year level of the walk: pop each year directory, run `valid_cursor`
on it (a `ValueError` there aborts everything), and process the months
of the directories that pass. -/
def crawlYears (cfg : IterCfg) (env : Oracles) :
    List String → Except TravErr (List Note)
  | [] => .ok []
  | y :: rest => do
    let keep ← valid_cursor cfg [NOTE_DIR, y]
    let here ←
      if keep then crawlMonths cfg env y (dirEntries env cfg [NOTE_DIR, y] 2)
      else pure []
    let more ← crawlYears cfg env rest
    return here ++ more

/-- The complete match sequence of the traversal: every note
`find_note` ever returns, in order (the root cursor `[NOTE_DIR]` is
itself checked by `valid_cursor` after the initial pop; its defaults
always form a valid date). -/
def noteCrawl (cfg : IterCfg) (env : Oracles) : Except TravErr (List Note) := do
  let keep ← valid_cursor cfg [NOTE_DIR]
  if keep then crawlYears cfg env (dirEntries env cfg [NOTE_DIR] 4)
  else return []

/-! ## The index window (`__next__`) -/

/-- The loop of `__next__` over the match stream, carrying `self.index`
(matches consumed so far): before each pull the cap is checked
(`index_max < index + 1` stops the whole traversal); a pulled match is
surfaced when the window is unset or its ordinal lies in some range,
and silently consumed otherwise. -/
def windowGo (index_set : Option (List (Nat × Nat))) (index_max : Option Nat) :
    Nat → List Note → List Note
  | _, [] => []
  | i, note :: rest =>
    if (match index_max with
        | some c => decide (c < i + 1)
        | none => false) then []
    else
      match index_set with
      | none => note :: windowGo index_set index_max (i + 1) rest
      | some rs =>
        if rs.any (fun p => decide (p.1 ≤ i + 1) && decide (i + 1 ≤ p.2)) then
          note :: windowGo index_set index_max (i + 1) rest
        else windowGo index_set index_max (i + 1) rest

/-- The full iterator pipeline: the notes surfaced by repeatedly calling
`__next__` until `StopIteration`. -/
def iterNotes (cfg : IterCfg) (env : Oracles) : Except TravErr (List Note) := do
  let ms ← noteCrawl cfg env
  return windowGo cfg.index_set cfg.index_max 0 ms

/-! ## The spec-side exhaustive walker (reference semantics for C3)

Modelled from the specification's words for the pruning-correctness
property: "the set obtained by descending into every directory, decoding
every leaf, and applying the full leaf validity check post hoc".  It
shares the leaf processing (`crawlLeaves`, which applies `valid_note`)
with the engine and differs only in never consulting `valid_cursor`. -/

/-- Spec-side month level: descend into every month directory. -/
def exhaustiveMonths (cfg : IterCfg) (env : Oracles) (y : String) :
    List String → Except TravErr (List Note)
  | [] => .ok []
  | m :: rest => do
    let here ← crawlLeaves cfg env (leafEntries env cfg [NOTE_DIR, y, m])
    let more ← exhaustiveMonths cfg env y rest
    return here ++ more

/-- Spec-side year level: descend into every year directory. -/
def exhaustiveYears (cfg : IterCfg) (env : Oracles) :
    List String → Except TravErr (List Note)
  | [] => .ok []
  | y :: rest => do
    let here ← exhaustiveMonths cfg env y (dirEntries env cfg [NOTE_DIR, y] 2)
    let more ← exhaustiveYears cfg env rest
    return here ++ more

/-- Spec-side reference walk: decode every leaf of every directory and
filter post hoc with the full `valid_note`. -/
def exhaustiveWalk (cfg : IterCfg) (env : Oracles) : Except TravErr (List Note) :=
  exhaustiveYears cfg env (dirEntries env cfg [NOTE_DIR] 4)

/-! ## Comparison helper lemmas -/

theorem bnot_eq_false {b : Bool} (h : (!b) = false) : b = true := by
  cases b
  · exact absurd h (by decide)
  · rfl

theorem dateLt_irrefl (d : PyDate) : dateLt d d = false := by
  simp [dateLt]

theorem dateLt_of_year_lt {a b : PyDate} (h : a.year < b.year) : dateLt a b = true := by
  simp only [dateLt]
  rw [if_pos (by omega : a.year ≠ b.year)]
  exact decide_eq_true h

theorem dateLt_of_year_eq_month_lt {a b : PyDate} (hy : a.year = b.year)
    (h : a.month < b.month) : dateLt a b = true := by
  simp only [dateLt]
  rw [if_neg (by omega : ¬a.year ≠ b.year), if_pos (by omega : a.month ≠ b.month)]
  exact decide_eq_true h

theorem dateLt_yearOnly (Y S : Nat) :
    dateLt ⟨Y, 1, 1, 0, 0, 0, 0⟩ ⟨S, 1, 1, 0, 0, 0, 0⟩ = decide (Y < S) := by
  by_cases h : Y = S
  · subst h
    simp [dateLt]
  · simp [dateLt, h]

theorem dateLt_yearMonth (Y M S T : Nat) :
    dateLt ⟨Y, M, 1, 0, 0, 0, 0⟩ ⟨S, T, 1, 0, 0, 0, 0⟩
      = (decide (Y < S) || (decide (Y = S) && decide (M < T))) := by
  by_cases hy : Y = S
  · subst hy
    by_cases hm : M = T
    · subst hm
      simp [dateLt]
    · simp [dateLt, hm]
  · simp [dateLt, hy]

/-! ## Cursor and crop evaluations at the fixed cut depth -/

theorem cursorFields_root : cursorFields [NOTE_DIR] = defaultParam := rfl

theorem cursorFields_year (y : String) :
    cursorFields [NOTE_DIR, y] = ⟨decVal y.toList, 1, 1, 0, 0, 0, 0⟩ := rfl

theorem cursorFields_month (y m : String) :
    cursorFields [NOTE_DIR, y, m]
      = ⟨decVal y.toList, decVal m.toList, 1, 0, 0, 0, 0⟩ := rfl

theorem crop_date_two (d : PyDate) :
    crop_date d 2 = ⟨d.year, 1, 1, 0, 0, 0, 0⟩ := rfl

theorem crop_date_three (d : PyDate) :
    crop_date d 3 = ⟨d.year, d.month, 1, 0, 0, 0, 0⟩ := rfl

/-- `datetime` accepts every month of a year in range (day 1 exists in
every month). -/
theorem daysInMonth_pos (Y M : Nat) : 1 ≤ daysInMonth Y M := by
  unfold daysInMonth
  split_ifs <;> omega

theorem validDate_yearMonth {Y M : Nat} (h1 : 1 ≤ Y) (h2 : Y ≤ 9999)
    (h3 : 1 ≤ M) (h4 : M ≤ 12) :
    validDate ⟨Y, M, 1, 0, 0, 0, 0⟩ = true := by
  have hd := daysInMonth_pos Y M
  simp only [validDate, Bool.and_eq_true, decide_eq_true_eq]
  omega

theorem validDate_year {Y : Nat} (h1 : 1 ≤ Y) (h2 : Y ≤ 9999) :
    validDate ⟨Y, 1, 1, 0, 0, 0, 0⟩ = true :=
  validDate_yearMonth h1 h2 (le_refl 1) (by omega)

/-- A cursor that yields any result at all assembles a valid date. -/
theorem valid_cursor_ok_valid {cfg : IterCfg} {cursor : List String} {b : Bool}
    (h : valid_cursor cfg cursor = .ok b) :
    validDate (cursorFields cursor) = true := by
  by_cases hv : validDate (cursorFields cursor) = true
  · exact hv
  · exfalso
    have hred : valid_cursor cfg cursor = .error .badCursor := by
      simp only [valid_cursor, cursor_date]
      rw [if_neg hv]
      rfl
    rw [hred] at h
    exact Except.noConfusion h

/-- On a cursor assembling a valid date, `valid_cursor` returns the
bound comparison. -/
theorem valid_cursor_eq_of_valid (cfg : IterCfg) (cursor : List String)
    (h : validDate (cursorFields cursor) = true) :
    valid_cursor cfg cursor
      = .ok (!((match cfg.since with
          | some s => dateLt (cursorFields cursor) (crop_date s.date cursor.length)
          | none => false) ||
        (match cfg.until' with
          | some u => dateLt (crop_date u.date cursor.length) (cursorFields cursor)
          | none => false))) := by
  simp only [valid_cursor, cursor_date]
  rw [if_pos h]
  rfl

/-- The root cursor `[NOTE_DIR]` always passes `valid_cursor`: the
defaults form a valid date and at level 1 both sides crop to the
all-minimum date. -/
theorem valid_cursor_root (cfg : IterCfg) :
    valid_cursor cfg [NOTE_DIR] = .ok true := by
  rw [valid_cursor_eq_of_valid cfg [NOTE_DIR] (by decide)]
  rcases hs : cfg.since with _ | s <;> rcases hu : cfg.until' with _ | u <;>
    simp only [hs, hu] <;> rfl

/-- A pruned year directory names a year strictly before the `since`
year or strictly after the `until` year. -/
theorem valid_cursor_year_false {cfg : IterCfg} {y : String}
    (h : valid_cursor cfg [NOTE_DIR, y] = .ok false) :
    (∃ s, cfg.since = some s ∧ decVal y.toList < s.date.year) ∨
    (∃ u, cfg.until' = some u ∧ u.date.year < decVal y.toList) := by
  have heq := valid_cursor_eq_of_valid cfg [NOTE_DIR, y] (valid_cursor_ok_valid h)
  rw [h] at heq
  injection heq with hb
  have h2 := bnot_eq_false hb.symm
  rcases hs : cfg.since with _ | s <;> rcases hu : cfg.until' with _ | u <;>
    simp only [hs, hu] at h2
  · exact absurd h2 (by decide)
  · have e1 : cursorFields [NOTE_DIR, y] = ⟨decVal y.toList, 1, 1, 0, 0, 0, 0⟩ := rfl
    have e2 : crop_date u.date [NOTE_DIR, y].length = ⟨u.date.year, 1, 1, 0, 0, 0, 0⟩ := rfl
    rw [e1, e2, dateLt_yearOnly] at h2
    simp only [Bool.false_or, decide_eq_true_eq] at h2
    exact Or.inr ⟨u, rfl, h2⟩
  · have e1 : cursorFields [NOTE_DIR, y] = ⟨decVal y.toList, 1, 1, 0, 0, 0, 0⟩ := rfl
    have e2 : crop_date s.date [NOTE_DIR, y].length = ⟨s.date.year, 1, 1, 0, 0, 0, 0⟩ := rfl
    rw [e1, e2, dateLt_yearOnly] at h2
    simp only [Bool.or_false, decide_eq_true_eq] at h2
    exact Or.inl ⟨s, rfl, h2⟩
  · have e1 : cursorFields [NOTE_DIR, y] = ⟨decVal y.toList, 1, 1, 0, 0, 0, 0⟩ := rfl
    have e2 : crop_date s.date [NOTE_DIR, y].length = ⟨s.date.year, 1, 1, 0, 0, 0, 0⟩ := rfl
    have e3 : crop_date u.date [NOTE_DIR, y].length = ⟨u.date.year, 1, 1, 0, 0, 0, 0⟩ := rfl
    rw [e1, e2, e3, dateLt_yearOnly, dateLt_yearOnly] at h2
    simp only [Bool.or_eq_true, decide_eq_true_eq] at h2
    rcases h2 with h2 | h2
    · exact Or.inl ⟨s, rfl, h2⟩
    · exact Or.inr ⟨u, rfl, h2⟩

/-- A pruned month directory names a `(year, month)` pair strictly
before the `since` pair or strictly after the `until` pair. -/
theorem valid_cursor_month_false {cfg : IterCfg} {y m : String}
    (h : valid_cursor cfg [NOTE_DIR, y, m] = .ok false) :
    (∃ s, cfg.since = some s ∧
      (decVal y.toList < s.date.year ∨
        (decVal y.toList = s.date.year ∧ decVal m.toList < s.date.month))) ∨
    (∃ u, cfg.until' = some u ∧
      (u.date.year < decVal y.toList ∨
        (u.date.year = decVal y.toList ∧ u.date.month < decVal m.toList))) := by
  have heq := valid_cursor_eq_of_valid cfg [NOTE_DIR, y, m] (valid_cursor_ok_valid h)
  rw [h] at heq
  injection heq with hb
  have h2 := bnot_eq_false hb.symm
  rcases hs : cfg.since with _ | s <;> rcases hu : cfg.until' with _ | u <;>
    simp only [hs, hu] at h2
  · exact absurd h2 (by decide)
  · have e1 : cursorFields [NOTE_DIR, y, m]
        = ⟨decVal y.toList, decVal m.toList, 1, 0, 0, 0, 0⟩ := rfl
    have e2 : crop_date u.date [NOTE_DIR, y, m].length
        = ⟨u.date.year, u.date.month, 1, 0, 0, 0, 0⟩ := rfl
    rw [e1, e2, dateLt_yearMonth] at h2
    simp only [Bool.false_or, Bool.or_eq_true, Bool.and_eq_true,
      decide_eq_true_eq] at h2
    exact Or.inr ⟨u, rfl, h2⟩
  · have e1 : cursorFields [NOTE_DIR, y, m]
        = ⟨decVal y.toList, decVal m.toList, 1, 0, 0, 0, 0⟩ := rfl
    have e2 : crop_date s.date [NOTE_DIR, y, m].length
        = ⟨s.date.year, s.date.month, 1, 0, 0, 0, 0⟩ := rfl
    rw [e1, e2, dateLt_yearMonth] at h2
    simp only [Bool.or_false, Bool.or_eq_true, Bool.and_eq_true,
      decide_eq_true_eq] at h2
    exact Or.inl ⟨s, rfl, h2⟩
  · have e1 : cursorFields [NOTE_DIR, y, m]
        = ⟨decVal y.toList, decVal m.toList, 1, 0, 0, 0, 0⟩ := rfl
    have e2 : crop_date s.date [NOTE_DIR, y, m].length
        = ⟨s.date.year, s.date.month, 1, 0, 0, 0, 0⟩ := rfl
    have e3 : crop_date u.date [NOTE_DIR, y, m].length
        = ⟨u.date.year, u.date.month, 1, 0, 0, 0, 0⟩ := rfl
    rw [e1, e2, e3, dateLt_yearMonth, dateLt_yearMonth] at h2
    simp only [Bool.or_eq_true, Bool.and_eq_true, decide_eq_true_eq] at h2
    rcases h2 with (h2 | h2) | h2
    · exact Or.inl ⟨s, rfl, Or.inl h2⟩
    · exact Or.inl ⟨s, rfl, Or.inr h2⟩
    · exact Or.inr ⟨u, rfl, h2⟩

/-! ## Membership chains through sorting, filtering and merging -/

theorem mergeAux_mem {id' : String} {exts' : List String} :
    ∀ (id : String) (exts : List String) (pairs : List (String × String)),
      (id', exts') ∈ mergeAux id exts pairs →
      id' = id ∨ ∃ e, (id', e) ∈ pairs := by
  intro id exts pairs
  induction pairs generalizing id exts with
  | nil =>
    intro h
    simp only [mergeAux, List.mem_singleton] at h
    exact Or.inl (congrArg Prod.fst h)
  | cons p rest ih =>
    obtain ⟨id2, e2⟩ := p
    intro h
    simp only [mergeAux] at h
    by_cases heq : id2 = id
    · rw [if_pos heq] at h
      rcases ih _ _ h with h1 | ⟨e, he⟩
      · exact Or.inl h1
      · exact Or.inr ⟨e, List.mem_cons_of_mem _ he⟩
    · rw [if_neg heq] at h
      rcases List.mem_cons.mp h with h1 | h1
      · exact Or.inl (congrArg Prod.fst h1)
      · rcases ih _ _ h1 with h2 | ⟨e, he⟩
        · exact Or.inr ⟨e2, by rw [h2]; exact List.mem_cons_self _ _⟩
        · exact Or.inr ⟨e, List.mem_cons_of_mem _ he⟩

theorem mergeLeaves_mem {id' : String} {exts' : List String}
    {pairs : List (String × String)} (h : (id', exts') ∈ mergeLeaves pairs) :
    ∃ e, (id', e) ∈ pairs := by
  cases pairs with
  | nil => cases h
  | cons p rest =>
    obtain ⟨id, e⟩ := p
    rcases mergeAux_mem id [e] rest h with h1 | ⟨e', he⟩
    · exact ⟨e, by rw [h1]; exact List.mem_cons_self _ _⟩
    · exact ⟨e', List.mem_cons_of_mem _ he⟩

theorem sortStrings_mem {s : String} {l : List String} (h : s ∈ sortStrings l) :
    s ∈ l :=
  (List.Perm.mem_iff (List.perm_insertionSort _ l)).mp h

/-- A directory entry delivered by `dirEntries` is a pattern-passing
member of the raw listing. -/
theorem dirEntries_mem {env : Oracles} {cfg : IterCfg} {path : List String}
    {w : Nat} {s : String} (h : s ∈ dirEntries env cfg path w) :
    s ∈ (env.listdir path).getD [] ∧ isDigits w s = true := by
  simp only [dirEntries] at h
  have h2 : s ∈ (sortStrings ((env.listdir path).getD [])).filter (isDigits w) := by
    by_cases hr : cfg.reverse <;> simp only [hr, if_true, if_false] at h
    · exact List.mem_reverse.mp h
    · exact h
  have h3 := List.mem_filter.mp h2
  exact ⟨sortStrings_mem h3.1, h3.2⟩

/-- A leaf entry delivered by `leafEntries` carries the identifier of a
pattern-matching file of the raw listing. -/
theorem leafEntries_mem {env : Oracles} {cfg : IterCfg} {path : List String}
    {nnid : String} {exts : List String}
    (h : (nnid, exts) ∈ leafEntries env cfg path) :
    ∃ fn ∈ (env.listdir path).getD [], ∃ ext, matchLeaf fn = some (nnid, ext) := by
  simp only [leafEntries] at h
  have h2 : (nnid, exts) ∈ mergeLeaves
      ((sortStrings ((env.listdir path).getD [])).filterMap matchLeaf) := by
    by_cases hr : cfg.reverse <;> simp only [hr, if_true, if_false] at h
    · exact List.mem_reverse.mp h
    · exact h
  obtain ⟨e, he⟩ := mergeLeaves_mem h2
  obtain ⟨fn, hfn, hmatch⟩ := List.mem_filterMap.mp he
  exact ⟨fn, sortStrings_mem hfn, e, hmatch⟩

/-! ## Well-placed stores

The layout invariant the path mapping maintains: every pattern-matching
leaf filename under the `year/month` bucket decodes successfully and its
date carries exactly that year and month.  A hierarchy with misplaced or
undecodable leaves violates it (see the C3/C4 counterexamples). -/

def WellPlaced (env : Oracles) : Prop :=
  ∀ y, isDigits 4 y = true → y ∈ (env.listdir [NOTE_DIR]).getD [] →
  ∀ m, isDigits 2 m = true → m ∈ (env.listdir [NOTE_DIR, y]).getD [] →
  ∀ fn ∈ (env.listdir [NOTE_DIR, y, m]).getD [],
  ∀ nnid ext, matchLeaf fn = some (nnid, ext) →
  ∃ d r, nnid_decode nnid = .ok (d, r) ∧ d.year = decVal y.toList ∧
    d.month = decVal m.toList

/-- Every digit-named year and month directory carries an in-range
field value, so the `datetime` constructor inside `cursor_date` never
raises on it.  A store with an out-of-range bucket (a month directory
`13`, a year directory `0000` — necessarily leaf-free under
`WellPlaced`) makes the pruned engine abort with `ValueError` inside
`valid_cursor` while the exhaustive reference walk, which never calls
`cursor_date`, completes. -/
def ValidBuckets (env : Oracles) : Prop :=
  (∀ y, isDigits 4 y = true → y ∈ (env.listdir [NOTE_DIR]).getD [] →
    1 ≤ decVal y.toList ∧ decVal y.toList ≤ 9999) ∧
  (∀ y, isDigits 4 y = true → y ∈ (env.listdir [NOTE_DIR]).getD [] →
   ∀ m, isDigits 2 m = true → m ∈ (env.listdir [NOTE_DIR, y]).getD [] →
    1 ≤ decVal m.toList ∧ decVal m.toList ≤ 12)

/-! ## Pruning soundness: every leaf of a pruned directory fails
`valid_note`'s date check -/

theorem crawlLeaves_nil_of_invalid (cfg : IterCfg) (env : Oracles)
    (entries : List (String × List String))
    (h : ∀ nnid exts, (nnid, exts) ∈ entries →
      ∃ d r, nnid_decode nnid = .ok (d, r) ∧
        (dateSinceOk cfg.since ⟨d, r, exts⟩ = false ∨
         dateUntilOk cfg.until' ⟨d, r, exts⟩ = false)) :
    crawlLeaves cfg env entries = .ok [] := by
  induction entries with
  | nil => rfl
  | cons p rest ih =>
    obtain ⟨nnid, exts⟩ := p
    obtain ⟨d, r, hdec, hinv⟩ := h nnid exts (List.mem_cons_self _ _)
    have hrest := ih (fun nnid exts hm => h nnid exts (List.mem_cons_of_mem _ hm))
    have hvn : ∃ n', valid_note cfg env ⟨d, r, exts⟩ = .ok (false, n') := by
      rcases hinv with hiv | hiv
      · exact ⟨_, by simp only [valid_note, hiv]; rfl⟩
      · by_cases hs : (!dateSinceOk cfg.since ⟨d, r, exts⟩) = true
        · exact ⟨_, by simp only [valid_note]; rw [if_pos hs]⟩
        · exact ⟨_, by
            simp only [valid_note]
            rw [if_neg hs, if_pos (show (!dateUntilOk cfg.until' ⟨d, r, exts⟩) = true by
              rw [hiv]; rfl)]⟩
    obtain ⟨n', hvn⟩ := hvn
    simp only [crawlLeaves, hdec, hvn, hrest]
    rfl

theorem leaves_nil_of_year_pruned (cfg : IterCfg) (env : Oracles)
    (hwp : WellPlaced env) {y m : String}
    (hy4 : isDigits 4 y = true) (hym : y ∈ (env.listdir [NOTE_DIR]).getD [])
    (hm2 : isDigits 2 m = true) (hmm : m ∈ (env.listdir [NOTE_DIR, y]).getD [])
    (hvc : valid_cursor cfg [NOTE_DIR, y] = .ok false) :
    crawlLeaves cfg env (leafEntries env cfg [NOTE_DIR, y, m]) = .ok [] := by
  apply crawlLeaves_nil_of_invalid
  intro nnid exts hmem
  obtain ⟨fn, hfn, ext, hmatch⟩ := leafEntries_mem hmem
  obtain ⟨d, r, hdec, hyr, hmo⟩ := hwp y hy4 hym m hm2 hmm fn hfn nnid ext hmatch
  refine ⟨d, r, hdec, ?_⟩
  have hproj : (⟨d, r, exts⟩ : Note).date = d := rfl
  rcases valid_cursor_year_false hvc with ⟨s, hs, hlt⟩ | ⟨u, hu, hlt⟩
  · left
    simp only [dateSinceOk, hs, hproj]
    rw [dateLt_of_year_lt (show d.year < s.date.year by omega)]
    rfl
  · right
    simp only [dateUntilOk, hu, hproj]
    rw [dateLt_of_year_lt (show u.date.year < d.year by omega)]
    rfl

theorem leaves_nil_of_month_pruned (cfg : IterCfg) (env : Oracles)
    (hwp : WellPlaced env) {y m : String}
    (hy4 : isDigits 4 y = true) (hym : y ∈ (env.listdir [NOTE_DIR]).getD [])
    (hm2 : isDigits 2 m = true) (hmm : m ∈ (env.listdir [NOTE_DIR, y]).getD [])
    (hvc : valid_cursor cfg [NOTE_DIR, y, m] = .ok false) :
    crawlLeaves cfg env (leafEntries env cfg [NOTE_DIR, y, m]) = .ok [] := by
  apply crawlLeaves_nil_of_invalid
  intro nnid exts hmem
  obtain ⟨fn, hfn, ext, hmatch⟩ := leafEntries_mem hmem
  obtain ⟨d, r, hdec, hyr, hmo⟩ := hwp y hy4 hym m hm2 hmm fn hfn nnid ext hmatch
  refine ⟨d, r, hdec, ?_⟩
  have hproj : (⟨d, r, exts⟩ : Note).date = d := rfl
  rcases valid_cursor_month_false hvc with ⟨s, hs, hlt | ⟨hyeq, hmlt⟩⟩ |
    ⟨u, hu, hlt | ⟨hyeq, hmlt⟩⟩
  · left
    simp only [dateSinceOk, hs, hproj]
    rw [dateLt_of_year_lt (show d.year < s.date.year by omega)]
    rfl
  · left
    simp only [dateSinceOk, hs, hproj]
    rw [dateLt_of_year_eq_month_lt (show d.year = s.date.year by omega)
      (show d.month < s.date.month by omega)]
    rfl
  · right
    simp only [dateUntilOk, hu, hproj]
    rw [dateLt_of_year_lt (show u.date.year < d.year by omega)]
    rfl
  · right
    simp only [dateUntilOk, hu, hproj]
    rw [dateLt_of_year_eq_month_lt (show u.date.year = d.year by omega)
      (show u.date.month < d.month by omega)]
    rfl

theorem exhaustiveMonths_nil (cfg : IterCfg) (env : Oracles) (y : String) :
    ∀ ms, (∀ m ∈ ms,
        crawlLeaves cfg env (leafEntries env cfg [NOTE_DIR, y, m]) = .ok []) →
      exhaustiveMonths cfg env y ms = .ok [] := by
  intro ms
  induction ms with
  | nil => intro _; rfl
  | cons m rest ih =>
    intro h
    simp only [exhaustiveMonths, h m (List.mem_cons_self _ _),
      ih (fun m' hm' => h m' (List.mem_cons_of_mem _ hm'))]
    rfl

theorem crawlMonths_eq_exhaustive (cfg : IterCfg) (env : Oracles)
    (hwp : WellPlaced env) {y : String}
    (hy4 : isDigits 4 y = true) (hym : y ∈ (env.listdir [NOTE_DIR]).getD [])
    (hyv : 1 ≤ decVal y.toList ∧ decVal y.toList ≤ 9999) :
    ∀ ms, (∀ m ∈ ms, isDigits 2 m = true ∧ m ∈ (env.listdir [NOTE_DIR, y]).getD []
        ∧ 1 ≤ decVal m.toList ∧ decVal m.toList ≤ 12) →
      crawlMonths cfg env y ms = exhaustiveMonths cfg env y ms := by
  intro ms
  induction ms with
  | nil => intro _; rfl
  | cons m rest ih =>
    intro h
    obtain ⟨hm2, hmm, hmv1, hmv2⟩ := h m (List.mem_cons_self _ _)
    have ihr := ih (fun m2 hm2 => h m2 (List.mem_cons_of_mem _ hm2))
    have hvd : validDate (cursorFields [NOTE_DIR, y, m]) = true := by
      rw [cursorFields_month]
      exact validDate_yearMonth hyv.1 hyv.2 hmv1 hmv2
    obtain ⟨b, hvc⟩ : ∃ b, valid_cursor cfg [NOTE_DIR, y, m] = .ok b :=
      ⟨_, valid_cursor_eq_of_valid cfg [NOTE_DIR, y, m] hvd⟩
    cases b
    · have hnil := leaves_nil_of_month_pruned cfg env hwp hy4 hym hm2 hmm hvc
      have hred : crawlMonths cfg env y (m :: rest)
          = (do
              let more ← crawlMonths cfg env y rest
              return ([] : List Note) ++ more) := by
        simp only [crawlMonths, hvc]
        rfl
      have hexh : exhaustiveMonths cfg env y (m :: rest)
          = (do
              let more ← exhaustiveMonths cfg env y rest
              return ([] : List Note) ++ more) := by
        simp only [exhaustiveMonths, hnil]
        rfl
      rw [hred, hexh]
      simp only [ihr]
    · have hred : crawlMonths cfg env y (m :: rest)
          = (do
              let here ← crawlLeaves cfg env (leafEntries env cfg [NOTE_DIR, y, m])
              let more ← crawlMonths cfg env y rest
              return here ++ more) := by
        simp only [crawlMonths, hvc]
        rfl
      have hexh : exhaustiveMonths cfg env y (m :: rest)
          = (do
              let here ← crawlLeaves cfg env (leafEntries env cfg [NOTE_DIR, y, m])
              let more ← exhaustiveMonths cfg env y rest
              return here ++ more) := rfl
      rw [hred, hexh]
      simp only [ihr]

theorem crawlYears_eq_exhaustive (cfg : IterCfg) (env : Oracles)
    (hwp : WellPlaced env) (hvb : ValidBuckets env) :
    ∀ ys, (∀ y ∈ ys, isDigits 4 y = true ∧ y ∈ (env.listdir [NOTE_DIR]).getD []) →
      crawlYears cfg env ys = exhaustiveYears cfg env ys := by
  intro ys
  induction ys with
  | nil => intro _; rfl
  | cons y rest ih =>
    intro h
    obtain ⟨hy4, hym⟩ := h y (List.mem_cons_self _ _)
    have ihr := ih (fun y2 hy2 => h y2 (List.mem_cons_of_mem _ hy2))
    have hyv := hvb.1 y hy4 hym
    have hmonths : ∀ m ∈ dirEntries env cfg [NOTE_DIR, y] 2,
        isDigits 2 m = true ∧ m ∈ (env.listdir [NOTE_DIR, y]).getD []
          ∧ 1 ≤ decVal m.toList ∧ decVal m.toList ≤ 12 := by
      intro m hm
      have hdm := dirEntries_mem hm
      have hmv := hvb.2 y hy4 hym m hdm.2 hdm.1
      exact ⟨hdm.2, hdm.1, hmv.1, hmv.2⟩
    have hvd : validDate (cursorFields [NOTE_DIR, y]) = true := by
      rw [cursorFields_year]
      exact validDate_year hyv.1 hyv.2
    obtain ⟨b, hvc⟩ : ∃ b, valid_cursor cfg [NOTE_DIR, y] = .ok b :=
      ⟨_, valid_cursor_eq_of_valid cfg [NOTE_DIR, y] hvd⟩
    cases b
    · have hnil : exhaustiveMonths cfg env y (dirEntries env cfg [NOTE_DIR, y] 2)
          = .ok [] := by
        apply exhaustiveMonths_nil
        intro m hm
        obtain ⟨hm2, hmm, _, _⟩ := hmonths m hm
        exact leaves_nil_of_year_pruned cfg env hwp hy4 hym hm2 hmm hvc
      have hred : crawlYears cfg env (y :: rest)
          = (do
              let more ← crawlYears cfg env rest
              return ([] : List Note) ++ more) := by
        simp only [crawlYears, hvc]
        rfl
      have hexh : exhaustiveYears cfg env (y :: rest)
          = (do
              let more ← exhaustiveYears cfg env rest
              return ([] : List Note) ++ more) := by
        simp only [exhaustiveYears, hnil]
        rfl
      rw [hred, hexh]
      simp only [ihr]
    · have hmeq := crawlMonths_eq_exhaustive cfg env hwp hy4 hym hyv
        (dirEntries env cfg [NOTE_DIR, y] 2) hmonths
      have hred : crawlYears cfg env (y :: rest)
          = (do
              let here ← crawlMonths cfg env y (dirEntries env cfg [NOTE_DIR, y] 2)
              let more ← crawlYears cfg env rest
              return here ++ more) := by
        simp only [crawlYears, hvc]
        rfl
      have hexh : exhaustiveYears cfg env (y :: rest)
          = (do
              let here ← exhaustiveMonths cfg env y (dirEntries env cfg [NOTE_DIR, y] 2)
              let more ← exhaustiveYears cfg env rest
              return here ++ more) := rfl
      rw [hred, hexh]
      simp only [hmeq, ihr]

/-- C3 (amended).  For every since/until bound pair and every directory
hierarchy satisfying the layout invariant — every pattern-matching leaf
decodes and lies in the `year/month` bucket its identity maps to, and
every digit-named year/month bucket carries an in-range field value, as
the path mapping guarantees for stores it created — the traversal with
partial-path range pruning yields exactly the notes of the spec-side
exhaustive walk that descends into every directory, decodes every leaf
and applies the full leaf validity check post hoc: pruning never changes
the output (even its order).  The two layout hypotheses are the
correction: with a misplaced leaf, pruning drops an in-range note (see
the counterexample), and with an out-of-range bucket such as a month
directory `13` the engine aborts inside `cursor_date` with `ValueError`
while the exhaustive reference completes. -/
theorem C3_pruning_equivalence_amended (cfg : IterCfg) (env : Oracles)
    (hwp : WellPlaced env) (hvb : ValidBuckets env) :
    noteCrawl cfg env = exhaustiveWalk cfg env := by
  have hred : noteCrawl cfg env
      = crawlYears cfg env (dirEntries env cfg [NOTE_DIR] 4) := by
    simp only [noteCrawl, valid_cursor_root cfg]
    rfl
  rw [hred]
  exact crawlYears_eq_exhaustive cfg env hwp hvb _
    (fun y hy => ⟨(dirEntries_mem hy).2, (dirEntries_mem hy).1⟩)

/-- A store holding one note misplaced into the year-0001 bucket. -/
def env3 : Oracles :=
  ⟨fun p =>
    if p = [NOTE_DIR] then some ["0001"]
    else if p = [NOTE_DIR, "0001"] then some ["01"]
    else if p = [NOTE_DIR, "0001", "01"] then
      some ["01132f80-00000000-00000000.txt"]
    else none,
  fun _ => [], fun _ _ => none⟩

/-- A forward iterator over `[2020-01-01T00:00:00.000000, ∞)`. -/
def cfg3 : IterCfg :=
  ⟨some ⟨⟨2020, 1, 1, 0, 0, 0, 0⟩, 0, []⟩, none, false, none, none,
    [], [], [], [], none⟩

/-- C3 (counterexample).  On a hierarchy with a misplaced leaf — a note
whose identity decodes to 2020-01-01 stored under `0001/01/` — pruning
discards the whole year-0001 subtree although the note itself passes the
full leaf validity check, so the pruned traversal yields strictly fewer
notes than the exhaustive decode-and-filter walk: the claim's "for every
directory hierarchy ... pruning never changes the output set" is false
as stated. -/
theorem C3_pruning_counterexample :
    noteCrawl cfg3 env3 = .ok [] ∧
    exhaustiveWalk cfg3 env3 = .ok [⟨⟨2020, 1, 1, 0, 0, 0, 0⟩, 0, [".txt"]⟩] :=
  ⟨rfl, rfl⟩

/-- A well-placed one-note store for the C3 witness. -/
def envW : Oracles :=
  ⟨fun p =>
    if p = [NOTE_DIR] then some ["2020"]
    else if p = [NOTE_DIR, "2020"] then some ["01"]
    else if p = [NOTE_DIR, "2020", "01"] then
      some ["01132f80-00000000-00000000.txt"]
    else none,
  fun _ => [], fun _ _ => none⟩

/-- A forward iterator over `[2021-01-01, ∞)` (prunes everything). -/
def cfgW : IterCfg :=
  ⟨some ⟨⟨2021, 1, 1, 0, 0, 0, 0⟩, 0, []⟩, none, false, none, none,
    [], [], [], [], none⟩

theorem envW_wellPlaced : WellPlaced envW := by
  intro y hy4 hym m hm2 hmm fn hfn nnid ext hmatch
  have h0 : (envW.listdir [NOTE_DIR]).getD [] = ["2020"] := rfl
  rw [h0, List.mem_singleton] at hym
  subst hym
  have h1 : (envW.listdir [NOTE_DIR, "2020"]).getD [] = ["01"] := rfl
  rw [h1, List.mem_singleton] at hmm
  subst hmm
  have h2 : (envW.listdir [NOTE_DIR, "2020", "01"]).getD []
      = ["01132f80-00000000-00000000.txt"] := rfl
  rw [h2, List.mem_singleton] at hfn
  subst hfn
  have h3 : matchLeaf "01132f80-00000000-00000000.txt"
      = some ("01132f80-00000000-00000000", ".txt") := rfl
  rw [h3] at hmatch
  simp only [Option.some.injEq, Prod.mk.injEq] at hmatch
  obtain ⟨h4, h5⟩ := hmatch
  subst h4
  exact ⟨⟨2020, 1, 1, 0, 0, 0, 0⟩, 0, rfl, rfl, rfl⟩

theorem envW_validBuckets : ValidBuckets envW := by
  constructor
  · intro y hy4 hym
    have h0 : (envW.listdir [NOTE_DIR]).getD [] = ["2020"] := rfl
    rw [h0, List.mem_singleton] at hym
    subst hym
    exact ⟨by decide, by decide⟩
  · intro y hy4 hym m hm2 hmm
    have h0 : (envW.listdir [NOTE_DIR]).getD [] = ["2020"] := rfl
    rw [h0, List.mem_singleton] at hym
    subst hym
    have h1 : (envW.listdir [NOTE_DIR, "2020"]).getD [] = ["01"] := rfl
    rw [h1, List.mem_singleton] at hmm
    subst hmm
    exact ⟨by decide, by decide⟩

/-- Witness for C3 (amended) at the concrete well-placed store. -/
theorem C3_pruning_equivalence_amended_witness :
    noteCrawl cfgW envW = exhaustiveWalk cfgW envW :=
  C3_pruning_equivalence_amended cfgW envW envW_wellPlaced envW_validBuckets

/-! ## Order toolkit: the code-point string order versus numeric values

Python sorts directory listings by code-point string order; the
traversal's output order claims reduce to relating that order to the
numeric values of the fixed-width decimal and hexadecimal names. -/

theorem charLt_iff_toNat {c d : Char} : c < d ↔ c.toNat < d.toNat := Iff.rfl

theorem charLe_iff_toNat {c d : Char} : c ≤ d ↔ c.toNat ≤ d.toNat := Iff.rfl

theorem char_eq_of_toNat_eq {c d : Char} (h : c.toNat = d.toNat) : c = d := by
  rw [← Char.ofNat_toNat c, ← Char.ofNat_toNat d, h]

theorem listCharLt_irrefl : ∀ cs, listCharLt cs cs = false := by
  intro cs
  induction cs with
  | nil => rfl
  | cons c rest ih =>
    simp only [listCharLt]
    rw [if_neg (lt_irrefl c), if_neg (lt_irrefl c)]
    exact ih

theorem listCharLt_trans : ∀ as bs cs, listCharLt as bs = true →
    listCharLt bs cs = true → listCharLt as cs = true := by
  intro as
  induction as with
  | nil =>
    intro bs cs h1 h2
    cases bs with
    | nil => exact h2
    | cons b bs =>
      cases cs with
      | nil => cases h2
      | cons c cs => rfl
  | cons a as ih =>
    intro bs cs h1 h2
    cases bs with
    | nil => cases h1
    | cons b bs =>
      cases cs with
      | nil => cases h2
      | cons c cs =>
        simp only [listCharLt] at h1 h2 ⊢
        by_cases hab : a < b
        · by_cases hbc : b < c
          · rw [if_pos (lt_trans hab hbc)]
          · by_cases hcb : c < b
            · rw [if_neg hbc, if_pos hcb] at h2
              cases h2
            · have hbceq : b = c := le_antisymm (not_lt.mp hcb) (not_lt.mp hbc)
              rw [if_pos (hbceq ▸ hab)]
        · by_cases hba : b < a
          · rw [if_neg hab, if_pos hba] at h1
            cases h1
          · have habeq : a = b := le_antisymm (not_lt.mp hba) (not_lt.mp hab)
            subst habeq
            rw [if_neg hab, if_neg hba] at h1
            by_cases hac : a < c
            · rw [if_pos hac]
            · by_cases hca : c < a
              · rw [if_neg hac, if_pos hca] at h2
                cases h2
              · have haceq : a = c := le_antisymm (not_lt.mp hca) (not_lt.mp hac)
                subst haceq
                rw [if_neg hac, if_neg hca] at h2 ⊢
                exact ih bs cs h1 h2

theorem listCharLt_asymm {as bs : List Char} (h : listCharLt as bs = true) :
    listCharLt bs as = false := by
  cases hba : listCharLt bs as
  · rfl
  · have := listCharLt_trans as bs as h hba
    rw [listCharLt_irrefl] at this
    cases this

theorem listCharLt_or_eq : ∀ as bs : List Char,
    listCharLt as bs = true ∨ as = bs ∨ listCharLt bs as = true := by
  intro as
  induction as with
  | nil =>
    intro bs
    cases bs with
    | nil => exact Or.inr (Or.inl rfl)
    | cons b bs => exact Or.inl rfl
  | cons a as ih =>
    intro bs
    cases bs with
    | nil => exact Or.inr (Or.inr rfl)
    | cons b bs =>
      rcases lt_trichotomy a b with hab | hab | hab
      · exact Or.inl (by simp only [listCharLt]; rw [if_pos hab])
      · subst hab
        rcases ih bs with h | h | h
        · exact Or.inl (by
            simp only [listCharLt]
            rw [if_neg (lt_irrefl a), if_neg (lt_irrefl a)]
            exact h)
        · exact Or.inr (Or.inl (by rw [h]))
        · exact Or.inr (Or.inr (by
            simp only [listCharLt]
            rw [if_neg (lt_irrefl a), if_neg (lt_irrefl a)]
            exact h))
      · exact Or.inr (Or.inr (by simp only [listCharLt]; rw [if_pos hab]))

theorem string_eq_of_toList_eq {a b : String} (h : a.toList = b.toList) : a = b := by
  cases a with
  | mk da =>
    cases b with
    | mk db => exact congrArg String.mk h

instance pyStrLe_isTotal : IsTotal String (fun a b => pyStrLe a b = true) := by
  constructor
  intro a b
  simp only [pyStrLe, pyStrLt, Bool.not_eq_true']
  rcases listCharLt_or_eq a.toList b.toList with h | h | h
  · exact Or.inl (listCharLt_asymm h)
  · exact Or.inl (by rw [h, listCharLt_irrefl])
  · exact Or.inr (listCharLt_asymm h)

instance pyStrLe_isTrans : IsTrans String (fun a b => pyStrLe a b = true) := by
  constructor
  intro a b c h1 h2
  simp only [pyStrLe, pyStrLt, Bool.not_eq_true'] at h1 h2 ⊢
  cases hca : listCharLt c.toList a.toList
  · rfl
  · exfalso
    rcases listCharLt_or_eq a.toList b.toList with h | h | h
    · have := listCharLt_trans _ _ _ hca h
      rw [h2] at this
      cases this
    · rw [h] at hca
      rw [hca] at h2
      cases h2
    · rw [h1] at h
      cases h

theorem sortStrings_sorted (l : List String) :
    (sortStrings l).Pairwise (fun a b => pyStrLe a b = true) :=
  List.sorted_insertionSort _ l

theorem sortStrings_perm (l : List String) : (sortStrings l).Perm l :=
  List.perm_insertionSort _ l

/-! ## Mixed-radix comparison lemmas -/

theorem mul_radix_lt_iff (R x1 x2 a1 a2 : Nat) (h1 : a1 < R) (h2 : a2 < R) :
    x1 * R + a1 < x2 * R + a2 ↔ (x1 < x2 ∨ (x1 = x2 ∧ a1 < a2)) := by
  constructor
  · intro h
    rcases lt_trichotomy x1 x2 with hx | hx | hx
    · exact Or.inl hx
    · subst hx
      exact Or.inr ⟨rfl, by omega⟩
    · exfalso
      have hstep : x2 * R + a2 < x1 * R := by
        calc x2 * R + a2 < x2 * R + R := Nat.add_lt_add_left h2 _
          _ = (x2 + 1) * R := by ring
          _ ≤ x1 * R := Nat.mul_le_mul_right R hx
      have : x1 * R ≤ x1 * R + a1 := Nat.le_add_right _ _
      exact absurd (lt_of_le_of_lt this (lt_trans h hstep)) (lt_irrefl _)
  · rintro (hx | ⟨hx, ha⟩)
    · calc x1 * R + a1 < x1 * R + R := Nat.add_lt_add_left h1 _
        _ = (x1 + 1) * R := by ring
        _ ≤ x2 * R := Nat.mul_le_mul_right R hx
        _ ≤ x2 * R + a2 := Nat.le_add_right _ _
    · subst hx
      exact Nat.add_lt_add_left ha _

theorem mul_radix_eq_iff (R x1 x2 a1 a2 : Nat) (h1 : a1 < R) (h2 : a2 < R) :
    x1 * R + a1 = x2 * R + a2 ↔ (x1 = x2 ∧ a1 = a2) := by
  constructor
  · intro h
    have hR : 0 < R := lt_of_le_of_lt (Nat.zero_le _) h1
    have ha : a1 = a2 := by
      have e1 : (x1 * R + a1) % R = a1 := by
        rw [Nat.add_comm, Nat.add_mul_mod_self_right, Nat.mod_eq_of_lt h1]
      have e2 : (x2 * R + a2) % R = a2 := by
        rw [Nat.add_comm, Nat.add_mul_mod_self_right, Nat.mod_eq_of_lt h2]
      rw [← e1, ← e2, h]
    subst ha
    refine ⟨?_, rfl⟩
    have : x1 * R = x2 * R := by omega
    exact Nat.eq_of_mul_eq_mul_right hR this
  · rintro ⟨rfl, rfl⟩
    rfl

/-! ## Fixed-width digit strings and their values -/

theorem decVal_foldl (cs : List Char) : ∀ a,
    cs.foldl (fun a c => a * 10 + (c.toNat - 48)) a
      = a * 10 ^ cs.length + decVal cs := by
  induction cs with
  | nil => intro a; simp [decVal]
  | cons c rest ih =>
    intro a
    have h1 : (c :: rest).foldl (fun a c => a * 10 + (c.toNat - 48)) a
        = rest.foldl (fun a c => a * 10 + (c.toNat - 48)) (a * 10 + (c.toNat - 48)) := rfl
    have h2 : decVal (c :: rest)
        = rest.foldl (fun a c => a * 10 + (c.toNat - 48)) (0 * 10 + (c.toNat - 48)) := rfl
    rw [h1, h2, ih, ih]
    ring_nf
    simp [List.length_cons, pow_succ]
    ring

theorem digit_toNat_bounds {c : Char} (h : c.isDigit = true) :
    48 ≤ c.toNat ∧ c.toNat ≤ 57 := by
  simp only [Char.isDigit, Bool.and_eq_true, decide_eq_true_eq, ge_iff_le] at h
  obtain ⟨h1, h2⟩ := h
  have g1 : (48 : UInt32).toNat ≤ c.val.toNat := h1
  have g2 : c.val.toNat ≤ (57 : UInt32).toNat := h2
  have e1 : (48 : UInt32).toNat = 48 := rfl
  have e2 : (57 : UInt32).toNat = 57 := rfl
  rw [e1] at g1
  rw [e2] at g2
  exact ⟨g1, g2⟩

theorem decVal_lt_pow (cs : List Char) (h : cs.all Char.isDigit = true) :
    decVal cs < 10 ^ cs.length := by
  induction cs with
  | nil => simp [decVal]
  | cons c rest ih =>
    simp only [List.all_cons, Bool.and_eq_true] at h
    have hrest := ih h.2
    have hc := digit_toNat_bounds h.1
    have h2 : decVal (c :: rest)
        = (c.toNat - 48) * 10 ^ rest.length + decVal rest := by
      have e : decVal (c :: rest)
          = rest.foldl (fun a c => a * 10 + (c.toNat - 48)) (0 * 10 + (c.toNat - 48)) := rfl
      rw [e, decVal_foldl]
      ring_nf
    rw [h2]
    have hd : c.toNat - 48 ≤ 9 := by omega
    calc (c.toNat - 48) * 10 ^ rest.length + decVal rest
        < (c.toNat - 48) * 10 ^ rest.length + 10 ^ rest.length :=
          Nat.add_lt_add_left hrest _
      _ = (c.toNat - 48 + 1) * 10 ^ rest.length := by ring
      _ ≤ 10 * 10 ^ rest.length := Nat.mul_le_mul_right _ (by omega)
      _ = 10 ^ (c :: rest).length := by
          rw [List.length_cons, pow_succ]
          ring

theorem listCharLt_digits : ∀ cs ds : List Char, cs.length = ds.length →
    cs.all Char.isDigit = true → ds.all Char.isDigit = true →
    (listCharLt cs ds = true ↔ decVal cs < decVal ds) := by
  intro cs
  induction cs with
  | nil =>
    intro ds hlen _ _
    cases ds with
    | nil => simp [listCharLt, decVal]
    | cons d ds => cases hlen
  | cons c cs ih =>
    intro ds hlen hc hd
    cases ds with
    | nil => cases hlen
    | cons d ds =>
      simp only [List.all_cons, Bool.and_eq_true] at hc hd
      have hlen' : cs.length = ds.length := by
        simpa [List.length_cons] using hlen
      have ec : decVal (c :: cs) = (c.toNat - 48) * 10 ^ cs.length + decVal cs := by
        have e : decVal (c :: cs)
            = cs.foldl (fun a x => a * 10 + (x.toNat - 48)) (0 * 10 + (c.toNat - 48)) := rfl
        rw [e, decVal_foldl]
        ring_nf
      have ed : decVal (d :: ds) = (d.toNat - 48) * 10 ^ ds.length + decVal ds := by
        have e : decVal (d :: ds)
            = ds.foldl (fun a x => a * 10 + (x.toNat - 48)) (0 * 10 + (d.toNat - 48)) := rfl
        rw [e, decVal_foldl]
        ring_nf
      have hbc := decVal_lt_pow cs hc.2
      have hbd := decVal_lt_pow ds hd.2
      rw [ec, ed, hlen']
      rw [mul_radix_lt_iff (10 ^ ds.length) _ _ _ _ (hlen' ▸ hbc) hbd]
      have hcb := digit_toNat_bounds hc.1
      have hdb := digit_toNat_bounds hd.1
      simp only [listCharLt]
      by_cases hcd : c < d
      · rw [if_pos hcd]
        have : c.toNat - 48 < d.toNat - 48 := by
          have := charLt_iff_toNat.mp hcd
          omega
        simp [this]
      · by_cases hdc : d < c
        · rw [if_neg hcd, if_pos hdc]
          have hgt : d.toNat - 48 < c.toNat - 48 := by
            have := charLt_iff_toNat.mp hdc
            omega
          constructor
          · intro h
            cases h
          · rintro (h | ⟨h, _⟩) <;> omega
        · have hceq : c = d := le_antisymm (not_lt.mp hdc) (not_lt.mp hcd)
          subst hceq
          rw [if_neg hcd, if_neg hdc]
          rw [ih ds hlen' hc.2 hd.2]
          constructor
          · intro h
            exact Or.inr ⟨rfl, h⟩
          · rintro (h | ⟨_, h⟩)
            · omega
            · exact h

theorem decVal_inj_of_digits {cs ds : List Char} (hlen : cs.length = ds.length)
    (hc : cs.all Char.isDigit = true) (hd : ds.all Char.isDigit = true)
    (hne : cs ≠ ds) : decVal cs ≠ decVal ds := by
  rcases listCharLt_or_eq cs ds with h | h | h
  · exact Nat.ne_of_lt ((listCharLt_digits cs ds hlen hc hd).mp h)
  · exact absurd h hne
  · exact Nat.ne_of_gt ((listCharLt_digits ds cs hlen.symm hd hc).mp h)

/-! ## Fixed-width lower-case hexadecimal strings and their values -/

theorem hexLower_val_bounds {c : Char} (h : isHexLower c = true) :
    (48 ≤ c.toNat ∧ c.toNat ≤ 57 ∧ hexCharVal c = c.toNat - 48) ∨
    (97 ≤ c.toNat ∧ c.toNat ≤ 102 ∧ hexCharVal c = c.toNat - 87) := by
  simp only [isHexLower, Bool.or_eq_true, Bool.and_eq_true, decide_eq_true_eq] at h
  rcases h with hd | ⟨ha, hf⟩
  · obtain ⟨h1, h2⟩ := digit_toNat_bounds hd
    refine Or.inl ⟨h1, h2, ?_⟩
    unfold hexCharVal
    rw [if_pos hd]
  · have ea : (97 : Nat) ≤ c.toNat := by
      have g : (97 : UInt32).toNat ≤ c.val.toNat := charLe_iff_toNat.mp ha
      have e : (97 : UInt32).toNat = 97 := rfl
      rw [e] at g
      exact g
    have ef : c.toNat ≤ 102 := by
      have g : c.val.toNat ≤ (102 : UInt32).toNat := charLe_iff_toNat.mp hf
      have e : (102 : UInt32).toNat = 102 := rfl
      rw [e] at g
      exact g
    have hd : c.isDigit = false := by
      cases hdd : c.isDigit
      · rfl
      · obtain ⟨_, h2⟩ := digit_toNat_bounds hdd
        omega
    have hb : (decide ('a' ≤ c) && decide (c ≤ 'f')) = true := by
      rw [Bool.and_eq_true]
      exact ⟨decide_eq_true ha, decide_eq_true hf⟩
    refine Or.inr ⟨ea, ef, ?_⟩
    unfold hexCharVal
    rw [if_neg (fun hh => absurd (hd.symm.trans hh) (by decide)), if_pos hb]

theorem hexCharVal_lt_16 {c : Char} (h : isHexLower c = true) : hexCharVal c < 16 := by
  rcases hexLower_val_bounds h with ⟨h1, h2, h3⟩ | ⟨h1, h2, h3⟩ <;> omega

theorem hexLower_lt_iff {c d : Char} (hc : isHexLower c = true)
    (hd : isHexLower d = true) : c < d ↔ hexCharVal c < hexCharVal d := by
  rcases hexLower_val_bounds hc with ⟨hc1, hc2, hce⟩ | ⟨hc1, hc2, hce⟩ <;>
    rcases hexLower_val_bounds hd with ⟨hd1, hd2, hde⟩ | ⟨hd1, hd2, hde⟩ <;>
      rw [hce, hde, charLt_iff_toNat] <;> omega

theorem hexValBE_foldl (cs : List Char) : ∀ a,
    cs.foldl (fun a c => a * 16 + hexCharVal c) a
      = a * 16 ^ cs.length + hexValBE cs := by
  induction cs with
  | nil => intro a; simp [hexValBE]
  | cons c rest ih =>
    intro a
    have h1 : (c :: rest).foldl (fun a c => a * 16 + hexCharVal c) a
        = rest.foldl (fun a c => a * 16 + hexCharVal c) (a * 16 + hexCharVal c) := rfl
    have h2 : hexValBE (c :: rest)
        = rest.foldl (fun a c => a * 16 + hexCharVal c) (0 * 16 + hexCharVal c) := rfl
    rw [h1, h2, ih, ih]
    ring_nf
    simp [List.length_cons, pow_succ]
    ring

theorem hexValBE_lt_pow (cs : List Char) (h : cs.all isHexLower = true) :
    hexValBE cs < 16 ^ cs.length := by
  induction cs with
  | nil => simp [hexValBE]
  | cons c rest ih =>
    simp only [List.all_cons, Bool.and_eq_true] at h
    have hrest := ih h.2
    have hc := hexCharVal_lt_16 h.1
    have h2 : hexValBE (c :: rest)
        = hexCharVal c * 16 ^ rest.length + hexValBE rest := by
      have e : hexValBE (c :: rest)
          = rest.foldl (fun a x => a * 16 + hexCharVal x) (0 * 16 + hexCharVal c) := rfl
      rw [e, hexValBE_foldl]
      ring_nf
    rw [h2]
    calc hexCharVal c * 16 ^ rest.length + hexValBE rest
        < hexCharVal c * 16 ^ rest.length + 16 ^ rest.length :=
          Nat.add_lt_add_left hrest _
      _ = (hexCharVal c + 1) * 16 ^ rest.length := by ring
      _ ≤ 16 * 16 ^ rest.length := Nat.mul_le_mul_right _ (by omega)
      _ = 16 ^ (c :: rest).length := by
          rw [List.length_cons, pow_succ]
          ring

theorem listCharLt_hexLower : ∀ cs ds : List Char, cs.length = ds.length →
    cs.all isHexLower = true → ds.all isHexLower = true →
    (listCharLt cs ds = true ↔ hexValBE cs < hexValBE ds) := by
  intro cs
  induction cs with
  | nil =>
    intro ds hlen _ _
    cases ds with
    | nil => simp [listCharLt, hexValBE]
    | cons d ds => cases hlen
  | cons c cs ih =>
    intro ds hlen hc hd
    cases ds with
    | nil => cases hlen
    | cons d ds =>
      simp only [List.all_cons, Bool.and_eq_true] at hc hd
      have hlen' : cs.length = ds.length := by
        simpa [List.length_cons] using hlen
      have ec : hexValBE (c :: cs) = hexCharVal c * 16 ^ cs.length + hexValBE cs := by
        have e : hexValBE (c :: cs)
            = cs.foldl (fun a x => a * 16 + hexCharVal x) (0 * 16 + hexCharVal c) := rfl
        rw [e, hexValBE_foldl]
        ring_nf
      have ed : hexValBE (d :: ds) = hexCharVal d * 16 ^ ds.length + hexValBE ds := by
        have e : hexValBE (d :: ds)
            = ds.foldl (fun a x => a * 16 + hexCharVal x) (0 * 16 + hexCharVal d) := rfl
        rw [e, hexValBE_foldl]
        ring_nf
      have hbc := hexValBE_lt_pow cs hc.2
      have hbd := hexValBE_lt_pow ds hd.2
      rw [ec, ed, hlen']
      rw [mul_radix_lt_iff (16 ^ ds.length) _ _ _ _ (hlen' ▸ hbc) hbd]
      simp only [listCharLt]
      by_cases hcd : c < d
      · rw [if_pos hcd]
        have hv := (hexLower_lt_iff hc.1 hd.1).mp hcd
        simp [hv]
      · by_cases hdc : d < c
        · rw [if_neg hcd, if_pos hdc]
          have hv := (hexLower_lt_iff hd.1 hc.1).mp hdc
          constructor
          · intro h
            cases h
          · rintro (h | ⟨h, _⟩) <;> omega
        · have hceq : c = d := le_antisymm (not_lt.mp hdc) (not_lt.mp hcd)
          subst hceq
          rw [if_neg hcd, if_neg hdc]
          rw [ih ds hlen' hc.2 hd.2]
          constructor
          · intro h
            exact Or.inr ⟨rfl, h⟩
          · rintro (h | ⟨_, h⟩)
            · omega
            · exact h

/-! ## Comparing concatenations with equal-length prefixes -/

theorem listCharLt_append : ∀ (p1 p2 s1 s2 : List Char), p1.length = p2.length →
    listCharLt (p1 ++ s1) (p2 ++ s2)
      = if p1 = p2 then listCharLt s1 s2 else listCharLt p1 p2 := by
  intro p1
  induction p1 with
  | nil =>
    intro p2 s1 s2 hlen
    cases p2 with
    | nil => simp
    | cons b p2 => cases hlen
  | cons a p1 ih =>
    intro p2 s1 s2 hlen
    cases p2 with
    | nil => cases hlen
    | cons b p2 =>
      have hlen' : p1.length = p2.length := by
        simpa [List.length_cons] using hlen
      have step : listCharLt ((a :: p1) ++ s1) ((b :: p2) ++ s2)
          = if a < b then true
            else if b < a then false else listCharLt (p1 ++ s1) (p2 ++ s2) := rfl
      have step2 : listCharLt (a :: p1) (b :: p2)
          = if a < b then true else if b < a then false else listCharLt p1 p2 := rfl
      rw [step, step2]
      by_cases hab : a < b
      · rw [if_pos hab, if_pos hab]
        have hne : (a :: p1) ≠ (b :: p2) := by
          intro h
          injection h with h1 _
          exact absurd h1 (ne_of_lt hab)
        rw [if_neg hne]
      · by_cases hba : b < a
        · rw [if_neg hab, if_neg hab, if_pos hba, if_pos hba]
          have hne : (a :: p1) ≠ (b :: p2) := by
            intro h
            injection h with h1 _
            exact absurd h1 (ne_of_gt hba)
          rw [if_neg hne]
        · have heq : a = b := le_antisymm (not_lt.mp hba) (not_lt.mp hab)
          subst heq
          rw [if_neg hab, if_neg hab, if_neg hba, if_neg hba, ih p2 s1 s2 hlen']
          by_cases hp : p1 = p2
          · subst hp
            rw [if_pos rfl, if_pos rfl]
          · rw [if_neg hp, if_neg (fun h => hp (by injection h))]

theorem head?_eq_cons {α : Type} {l : List α} {a : α} (h : l.head? = some a) :
    l = a :: l.tail := by
  cases l with
  | nil => cases h
  | cons b t =>
    simp only [List.head?_cons, Option.some.injEq] at h
    rw [h]
    rfl

/-! ## The shape of a leaf identifier and its three hexadecimal fields -/

/-- The identifier half of the leaf pattern `NOTE_CUT_RE[-1]`:
`[0-9a-f]{8}-[0-9a-f]{8}-[0-9a-f]{8}` over the whole 26-character list. -/
def nnidShapeLower (cs : List Char) : Bool :=
  cs.length = 26 && (cs.take 8).all isHexLower
    && (cs.drop 8).head? = some '-' && ((cs.drop 9).take 8).all isHexLower
    && (cs.drop 17).head? = some '-' && (cs.drop 18).all isHexLower

theorem matchLeaf_shape {fn nnid ext : String}
    (h : matchLeaf fn = some (nnid, ext)) : nnidShapeLower nnid.toList = true := by
  simp only [matchLeaf] at h
  split at h
  · rename_i hC
    rw [Option.some.injEq, Prod.mk.injEq] at h
    obtain ⟨h1, _⟩ := h
    subst h1
    show nnidShapeLower (fn.toList.take 26) = true
    simp only [Bool.and_eq_true] at hC
    obtain ⟨⟨⟨⟨⟨⟨⟨⟨c1, c2⟩, c3⟩, c4⟩, c5⟩, c6⟩, _⟩, _⟩, _⟩ := hC
    simp only [nnidShapeLower, Bool.and_eq_true]
    exact ⟨⟨⟨⟨⟨c1, c2⟩, c3⟩, c4⟩, c5⟩, c6⟩
  · cases h

theorem matchLeaf_decomp {fn nnid ext : String}
    (h : matchLeaf fn = some (nnid, ext)) :
    fn.toList = nnid.toList ++ ext.toList := by
  simp only [matchLeaf] at h
  split at h
  · rw [Option.some.injEq, Prod.mk.injEq] at h
    obtain ⟨h1, h2⟩ := h
    subst h1
    subst h2
    show fn.toList = fn.toList.take 26 ++ fn.toList.drop 26
    rw [List.take_append_drop]
  · cases h

theorem nnidShape_parts {cs : List Char} (h : nnidShapeLower cs = true) :
    cs = cs.take 8 ++ ('-' :: ((cs.drop 9).take 8 ++ ('-' :: cs.drop 18)))
    ∧ (cs.take 8).length = 8 ∧ ((cs.drop 9).take 8).length = 8
    ∧ (cs.drop 18).length = 8
    ∧ (cs.take 8).all isHexLower = true
    ∧ ((cs.drop 9).take 8).all isHexLower = true
    ∧ (cs.drop 18).all isHexLower = true := by
  simp only [nnidShapeLower, Bool.and_eq_true, decide_eq_true_eq] at h
  obtain ⟨⟨⟨⟨⟨hlen, hall1⟩, hd8⟩, hall2⟩, hd17⟩, hall3⟩ := h
  have e2 : cs.drop 8 = '-' :: (cs.drop 8).tail := head?_eq_cons hd8
  have e3 : (cs.drop 8).tail = cs.drop 9 := by rw [List.tail_drop]
  have e6 : cs.drop 17 = '-' :: (cs.drop 17).tail := head?_eq_cons hd17
  have e7 : (cs.drop 17).tail = cs.drop 18 := by rw [List.tail_drop]
  have eA : cs.drop 17 = '-' :: cs.drop 18 := by rw [e6, e7]
  have eB : cs.drop 9 = (cs.drop 9).take 8 ++ ('-' :: cs.drop 18) := by
    have e4 : (cs.drop 9).take 8 ++ cs.drop 17 = cs.drop 9 :=
      List.drop_take_append_drop cs 9 8
    conv_lhs => rw [← e4]
    rw [eA]
  have eC : cs.drop 8 = '-' :: ((cs.drop 9).take 8 ++ ('-' :: cs.drop 18)) := by
    conv_lhs => rw [e2, e3, eB]
  refine ⟨?_, ?_, ?_, ?_, hall1, hall2, hall3⟩
  · conv_lhs => rw [← List.take_append_drop 8 cs, eC]
  · rw [List.length_take]
    omega
  · rw [List.length_take, List.length_drop]
    omega
  · rw [List.length_drop]
    omega

/-- A string comparison of two well-shaped identifiers orders the triple
`(head, tail, rand)` of their hexadecimal field values lexicographically. -/
theorem nnidLt_fields {n1 n2 : List Char}
    (h1 : nnidShapeLower n1 = true) (h2 : nnidShapeLower n2 = true)
    (hlt : listCharLt n1 n2 = true) :
    hexValBE (n1.take 8) < hexValBE (n2.take 8) ∨
    (hexValBE (n1.take 8) = hexValBE (n2.take 8) ∧
      (hexValBE ((n1.drop 9).take 8) < hexValBE ((n2.drop 9).take 8) ∨
       (hexValBE ((n1.drop 9).take 8) = hexValBE ((n2.drop 9).take 8) ∧
        hexValBE (n1.drop 18) < hexValBE (n2.drop 18)))) := by
  obtain ⟨e1, l1, t1, r1, a1, b1, c1⟩ := nnidShape_parts h1
  obtain ⟨e2, l2, t2, r2, a2, b2, c2⟩ := nnidShape_parts h2
  rw [e1, e2] at hlt
  rw [listCharLt_append _ _ _ _ (l1.trans l2.symm)] at hlt
  by_cases hA : n1.take 8 = n2.take 8
  · rw [if_pos hA] at hlt
    simp only [listCharLt] at hlt
    rw [if_neg (lt_irrefl '-'), if_neg (lt_irrefl '-')] at hlt
    rw [listCharLt_append _ _ _ _ (t1.trans t2.symm)] at hlt
    by_cases hB : (n1.drop 9).take 8 = (n2.drop 9).take 8
    · rw [if_pos hB] at hlt
      simp only [listCharLt] at hlt
      rw [if_neg (lt_irrefl '-'), if_neg (lt_irrefl '-')] at hlt
      exact Or.inr ⟨congrArg hexValBE hA, Or.inr ⟨congrArg hexValBE hB,
        (listCharLt_hexLower _ _ (r1.trans r2.symm) c1 c2).mp hlt⟩⟩
    · rw [if_neg hB] at hlt
      exact Or.inr ⟨congrArg hexValBE hA, Or.inl
        ((listCharLt_hexLower _ _ (t1.trans t2.symm) b1 b2).mp hlt)⟩
  · rw [if_neg hA] at hlt
    exact Or.inl ((listCharLt_hexLower _ _ (l1.trans l2.symm) a1 a2).mp hlt)

/-! ## Decoded fields as arithmetic of the two packed halves -/

theorem nnidGroups_some_parts {cs hh tt rr : List Char}
    (hg : nnidGroups cs = some (hh, tt, rr)) :
    hh = cs.take 8 ∧ tt = (cs.drop 9).take 8 ∧ rr = cs.drop 18 := by
  simp only [nnidGroups] at hg
  split at hg
  · rw [Option.some.injEq, Prod.mk.injEq, Prod.mk.injEq] at hg
    exact ⟨hg.1.symm, hg.2.1.symm, hg.2.2.symm⟩
  · cases hg

theorem pyDate_ext {a b : PyDate} (h1 : a.year = b.year) (h2 : a.month = b.month)
    (h3 : a.day = b.day) (h4 : a.hour = b.hour) (h5 : a.minute = b.minute)
    (h6 : a.second = b.second) (h7 : a.microsecond = b.microsecond) : a = b := by
  cases a
  cases b
  simp only [PyDate.mk.injEq]
  exact ⟨h1, h2, h3, h4, h5, h6, h7⟩

/-- A successful decode determines every `datetime` field and the nonce
as quotients and remainders of the three hexadecimal field values. -/
theorem nnid_decode_ok_fields {s : String} {d : PyDate} {r : Nat}
    (h : nnid_decode s = .ok (d, r)) :
    validDate d = true ∧
    d.year = hexValBE (s.toList.take 8) / 24 / 31 / 12 ∧
    d.month = hexValBE (s.toList.take 8) / 24 / 31 % 12 + 1 ∧
    d.day = hexValBE (s.toList.take 8) / 24 % 31 + 1 ∧
    d.hour = hexValBE (s.toList.take 8) % 24 ∧
    d.minute = hexValBE ((s.toList.drop 9).take 8) / 1000000 / 60 ∧
    d.second = hexValBE ((s.toList.drop 9).take 8) / 1000000 % 60 ∧
    d.microsecond = hexValBE ((s.toList.drop 9).take 8) % 1000000 ∧
    r = hexValBE (s.toList.drop 18) := by
  cases hg : nnidGroups s.toList with
  | none =>
    simp only [nnid_decode, hg] at h
    cases h
  | some g =>
    obtain ⟨hh, g2⟩ := g
    obtain ⟨tt, rr⟩ := g2
    obtain ⟨eh, et, er⟩ := nnidGroups_some_parts hg
    subst eh
    subst et
    subst er
    simp only [nnid_decode, hg, head_decode, tail_decode] at h
    split at h
    · rename_i hv
      rw [Except.ok.injEq, Prod.mk.injEq] at h
      obtain ⟨hd, hr⟩ := h
      subst hd
      exact ⟨hv, rfl, rfl, rfl, rfl, rfl, rfl, rfl, hr.symm⟩
    · cases h

/-- Decoding is strictly monotone: of two well-shaped identifiers that
both decode, the string-smaller one carries the smaller `(date, nonce)`
pair. -/
theorem decode_strict_mono {s1 s2 : String} {d1 d2 : PyDate} {r1 r2 : Nat}
    (h1 : nnid_decode s1 = .ok (d1, r1)) (h2 : nnid_decode s2 = .ok (d2, r2))
    (hs1 : nnidShapeLower s1.toList = true) (hs2 : nnidShapeLower s2.toList = true)
    (hlt : listCharLt s1.toList s2.toList = true) :
    dateLt d1 d2 = true ∨ (d1 = d2 ∧ r1 < r2) := by
  obtain ⟨hv1, f11, f12, f13, f14, f15, f16, f17, f18⟩ := nnid_decode_ok_fields h1
  obtain ⟨hv2, f21, f22, f23, f24, f25, f26, f27, f28⟩ := nnid_decode_ok_fields h2
  rcases nnidLt_fields hs1 hs2 hlt with hH | hrest
  · left
    simp only [dateLt]
    split_ifs <;> simp only [decide_eq_true_eq] <;> omega
  · obtain ⟨hHeq, hT | hTR⟩ := hrest
    · left
      simp only [dateLt]
      split_ifs <;> simp only [decide_eq_true_eq] <;> omega
    · obtain ⟨hTeq, hR⟩ := hTR
      right
      refine ⟨pyDate_ext ?_ ?_ ?_ ?_ ?_ ?_ ?_, ?_⟩ <;> omega

/-! ## C6: the attribute filter classifier -/

theorem parseAttrsGo_error (exts : List String) (meta attrs : List NoteAttr)
    (a : NoteAttr) (ha : a ∈ attrs) (hdot : a.key.front = '.')
    (hval : truthyOptStr a.value = true) :
    parseAttrsGo exts meta attrs = .error .invalidFilter := by
  induction attrs generalizing exts meta with
  | nil => cases ha
  | cons b rest ih =>
    simp only [parseAttrsGo]
    rcases List.mem_cons.mp ha with rfl | hmem
    · rw [if_pos hdot, if_pos hval]
    · by_cases hb : b.key.front = '.'
      · by_cases hbv : truthyOptStr b.value = true
        · rw [if_pos hb, if_pos hbv]
        · rw [if_pos hb, if_neg hbv]
          exact ih _ _ hmem
      · rw [if_neg hb]
        exact ih _ _ hmem

theorem parseAttrsGo_ok (attrs : List NoteAttr)
    (h : ∀ a ∈ attrs, a.key.front = '.' → truthyOptStr a.value = false) :
    ∀ exts meta, ∃ e,
      parseAttrsGo exts meta attrs
        = .ok (e, meta ++ attrs.filter (fun a => !(decide (a.key.front = '.')))) ∧
      ∀ k, k ∈ e ↔ (k ∈ exts ∨ ∃ a ∈ attrs, a.key.front = '.' ∧ a.key = k) := by
  induction attrs with
  | nil =>
    intro exts meta
    exact ⟨exts, by simp [parseAttrsGo], fun k => by simp⟩
  | cons b rest ih =>
    intro exts meta
    have hrest : ∀ a ∈ rest, a.key.front = '.' → truthyOptStr a.value = false :=
      fun a hm => h a (List.mem_cons_of_mem b hm)
    by_cases hb : b.key.front = '.'
    · have hbv : ¬(truthyOptStr b.value = true) := by
        rw [h b (List.mem_cons_self b rest) hb]
        simp
      obtain ⟨e, he, hmem⟩ :=
        ih hrest (if b.key ∈ exts then exts else exts ++ [b.key]) meta
      refine ⟨e, ?_, ?_⟩
      · simp only [parseAttrsGo]
        rw [if_pos hb, if_neg hbv, he]
        simp [List.filter_cons, hb]
      · intro k
        rw [hmem k]
        by_cases hin : b.key ∈ exts
        · simp only [hin, if_true]
          constructor
          · rintro (hk | ⟨a, hm, hd, hkey⟩)
            · exact Or.inl hk
            · exact Or.inr ⟨a, List.mem_cons_of_mem b hm, hd, hkey⟩
          · rintro (hk | ⟨a, hm, hd, hkey⟩)
            · exact Or.inl hk
            · rcases List.mem_cons.mp hm with rfl | hm2
              · exact Or.inl (hkey ▸ hin)
              · exact Or.inr ⟨a, hm2, hd, hkey⟩
        · simp only [hin, if_false, List.mem_append, List.mem_singleton]
          constructor
          · rintro ((hk | hk) | ⟨a, hm, hd, hkey⟩)
            · exact Or.inl hk
            · exact Or.inr ⟨b, List.mem_cons_self b rest, hb, hk.symm⟩
            · exact Or.inr ⟨a, List.mem_cons_of_mem b hm, hd, hkey⟩
          · rintro (hk | ⟨a, hm, hd, hkey⟩)
            · exact Or.inl (Or.inl hk)
            · rcases List.mem_cons.mp hm with rfl | hm2
              · exact Or.inl (Or.inr hkey.symm)
              · exact Or.inr ⟨a, hm2, hd, hkey⟩
    · obtain ⟨e, he, hmem⟩ := ih hrest exts (meta ++ [b])
      refine ⟨e, ?_, ?_⟩
      · simp only [parseAttrsGo]
        rw [if_neg hb, he]
        simp [List.filter_cons, hb]
      · intro k
        rw [hmem k]
        constructor
        · rintro (hk | ⟨a, hm, hd, hkey⟩)
          · exact Or.inl hk
          · exact Or.inr ⟨a, List.mem_cons_of_mem b hm, hd, hkey⟩
        · rintro (hk | ⟨a, hm, hd, hkey⟩)
          · exact Or.inl hk
          · rcases List.mem_cons.mp hm with rfl | hm2
            · exact absurd hd hb
            · exact Or.inr ⟨a, hm2, hd, hkey⟩

/-- C6.  A filter whose key begins with the extension marker `.` and
which carries a (truthy) value makes `parse_attributes` — and therefore
iterator construction, which invokes it — fail with
`InvalidFilterSyntax`; no such failure can arise mid-traversal because
the traversal only ever receives the already-classified sets.  When no
such filter is present, classification succeeds: the extension-filter
set holds exactly the `.`-prefixed keys and the metadata-filter set
exactly the remaining attributes, in order. -/
theorem C6_filter_classifier :
    (∀ (attrs : List NoteAttr) (a : NoteAttr), a ∈ attrs → a.key.front = '.' →
      truthyOptStr a.value = true →
      parse_attributes (some attrs) = .error .invalidFilter) ∧
    (∀ since until' reverse iset imax exclude grep
        (attrs : List NoteAttr) (a : NoteAttr), a ∈ attrs → a.key.front = '.' →
      truthyOptStr a.value = true →
      mkIterator since until' reverse iset imax (some attrs) exclude grep
        = .error .invalidFilter) ∧
    (∀ attrs : List NoteAttr,
      (∀ a ∈ attrs, a.key.front = '.' → truthyOptStr a.value = false) →
      ∃ e m, parse_attributes (some attrs) = .ok (e, m) ∧
        (∀ k, k ∈ e ↔ ∃ a ∈ attrs, a.key.front = '.' ∧ a.key = k) ∧
        m = attrs.filter (fun a => !(decide (a.key.front = '.')))) := by
  refine ⟨?_, ?_, ?_⟩
  · intro attrs a ha hdot hval
    exact parseAttrsGo_error [] [] attrs a ha hdot hval
  · intro since until' reverse iset imax exclude grep attrs a ha hdot hval
    have herr : parse_attributes (some attrs) = .error .invalidFilter :=
      parseAttrsGo_error [] [] attrs a ha hdot hval
    simp only [mkIterator, herr]
    rfl
  · intro attrs h
    obtain ⟨e, he, hmem⟩ := parseAttrsGo_ok attrs h [] []
    refine ⟨e, attrs.filter (fun a => !(decide (a.key.front = '.'))), ?_, ?_, rfl⟩
    · rw [parse_attributes, Option.getD, he]
      rfl
    · intro k
      rw [hmem k]
      simp

/-- Witness for C6 at concrete filter lists: `.txt=big` is rejected at
construction, while `[.txt, tag=x]` classifies into `{.txt}` and
`{tag=x}`. -/
theorem C6_filter_classifier_witness :
    parse_attributes (some [⟨".txt", some "big"⟩]) = .error .invalidFilter ∧
    mkIterator none none false none none (some [⟨".txt", some "big"⟩]) none none
      = .error .invalidFilter ∧
    ∃ e m, parse_attributes (some [⟨".txt", none⟩, ⟨"tag", some "x"⟩]) = .ok (e, m) ∧
      (∀ k, k ∈ e ↔ ∃ a ∈ [(⟨".txt", none⟩ : NoteAttr), ⟨"tag", some "x"⟩],
        a.key.front = '.' ∧ a.key = k) ∧
      m = [⟨"tag", some "x"⟩] := by
  refine ⟨?_, ?_, ?_⟩
  · exact C6_filter_classifier.1 [⟨".txt", some "big"⟩] ⟨".txt", some "big"⟩
      (List.mem_singleton.mpr rfl) (by decide) (by decide)
  · exact C6_filter_classifier.2.1 none none false none none none none
      [⟨".txt", some "big"⟩] ⟨".txt", some "big"⟩
      (List.mem_singleton.mpr rfl) (by decide) (by decide)
  · obtain ⟨e, m, he, hmem, hm⟩ := C6_filter_classifier.2.2
      [⟨".txt", none⟩, ⟨"tag", some "x"⟩]
      (by intro a ha; fin_cases ha <;> decide)
    exact ⟨e, m, he, hmem, by rw [hm]; decide⟩

/-! ## C8: the content filter -/

theorem grepFiles_ok_true_iff (pat : String → Bool) (env : Oracles)
    (path : List String) (exts : List String)
    (h : ∀ ext ∈ exts, (env.fileLines path ext).isSome) :
    grepFiles pat env path exts = .ok true ↔
      ∃ ext ∈ exts, ∃ lines, env.fileLines path ext = some lines ∧
        lines.any pat = true := by
  induction exts with
  | nil => simp [grepFiles]
  | cons ext rest ih =>
    have hx : (env.fileLines path ext).isSome :=
      h ext (List.mem_cons_self ext rest)
    obtain ⟨lines, hlines⟩ := Option.isSome_iff_exists.mp hx
    have hrest : ∀ e ∈ rest, (env.fileLines path e).isSome :=
      fun e he => h e (List.mem_cons_of_mem ext he)
    simp only [grepFiles, hlines]
    by_cases hm : lines.any pat = true
    · rw [if_pos hm]
      exact iff_of_true rfl ⟨ext, List.mem_cons_self ext rest, lines, hlines, hm⟩
    · rw [if_neg hm, ih hrest]
      constructor
      · rintro ⟨e, he, ls, hls, hany⟩
        exact ⟨e, List.mem_cons_of_mem ext he, ls, hls, hany⟩
      · rintro ⟨e, he, ls, hls, hany⟩
        rcases List.mem_cons.mp he with rfl | he2
        · rw [hlines] at hls
          injection hls with hls2
          subst hls2
          exact absurd hany hm
        · exact ⟨e, he2, ls, hls, hany⟩

theorem grepFiles_congr (pat : String → Bool) (env1 env2 : Oracles)
    (path : List String) (exts : List String)
    (h : ∀ ext ∈ exts, env1.fileLines path ext = env2.fileLines path ext) :
    grepFiles pat env1 path exts = grepFiles pat env2 path exts := by
  induction exts with
  | nil => rfl
  | cons ext rest ih =>
    simp only [grepFiles, h ext (List.mem_cons_self ext rest)]
    cases env2.fileLines path ext with
    | none => rfl
    | some lines =>
      by_cases hm : lines.any pat = true <;>
        simp [hm, ih (fun e he => h e (List.mem_cons_of_mem ext he))]

/-- C8 (amended).  With no pattern the content filter passes every note.
With a compiled pattern (and the note's grep-able files present) it
succeeds iff some line of some file whose extension is in the source's
allow-list `NOTE_EXT_GREP = [.txt, .rst, .mw]` matches; it fails when
the note has no extension from that list; and files with extensions
outside the list are never consulted (the result is invariant under
changing their contents).  The allow-list does **not** contain
Markdown `.md` — that is the correction to the claim. -/
theorem C8_content_filter_amended :
    (∀ cfg env n, cfg.grep = none → valid_note_contents cfg env n = .ok true) ∧
    (∀ (cfg : IterCfg) env n pat, cfg.grep = some pat →
      (∀ ext ∈ extensionsGrep n, (env.fileLines (realpath n.date n.rand) ext).isSome) →
      (valid_note_contents cfg env n = .ok true ↔
        ∃ ext ∈ extensionsGrep n, ∃ lines,
          env.fileLines (realpath n.date n.rand) ext = some lines ∧
          lines.any pat = true)) ∧
    (∀ (cfg : IterCfg) env n pat, cfg.grep = some pat → extensionsGrep n = [] →
      valid_note_contents cfg env n = .ok false) ∧
    (∀ (cfg : IterCfg) env1 env2 n pat, cfg.grep = some pat →
      (∀ ext ∈ extensionsGrep n,
        env1.fileLines (realpath n.date n.rand) ext
          = env2.fileLines (realpath n.date n.rand) ext) →
      valid_note_contents cfg env1 n = valid_note_contents cfg env2 n) := by
  refine ⟨?_, ?_, ?_, ?_⟩
  · intro cfg env n hg
    rw [valid_note_contents, hg]
  · intro cfg env n pat hg h
    rw [valid_note_contents, hg]
    exact grepFiles_ok_true_iff pat env _ _ h
  · intro cfg env n pat hg hempty
    rw [valid_note_contents, hg, hempty]
    rfl
  · intro cfg env1 env2 n pat hg h
    rw [valid_note_contents, valid_note_contents, hg]
    exact grepFiles_congr pat env1 env2 _ _ h

/-- Witness for C8 at a concrete note: a `.txt` note whose file contains
a matching line passes the filter. -/
theorem C8_content_filter_amended_witness :
    valid_note_contents
      ⟨none, none, false, none, none, [], [], [], [],
        some (fun l => l == "needle")⟩
      ⟨fun _ => none, fun _ => [],
        fun _ ext => if ext = ".txt" then some ["hay", "needle"] else none⟩
      ⟨⟨2020, 1, 1, 0, 0, 0, 0⟩, 0, [".txt"]⟩ = .ok true := by
  rw [(C8_content_filter_amended.2.1
    ⟨none, none, false, none, none, [], [], [], [],
      some (fun l => l == "needle")⟩
    ⟨fun _ => none, fun _ => [],
      fun _ ext => if ext = ".txt" then some ["hay", "needle"] else none⟩
    ⟨⟨2020, 1, 1, 0, 0, 0, 0⟩, 0, [".txt"]⟩ (fun l => l == "needle") rfl
    (by intro ext hext; fin_cases hext <;> rfl))]
  refine ⟨".txt", by decide, ["hay", "needle"], rfl, by decide⟩

/-- The text-bearing allow-list as the claim words it (plain text,
reStructuredText, **Markdown**, MediaWiki) — a spec-side definition used
only to exhibit the divergence from the source's `NOTE_EXT_GREP`. -/
def specTextExts : List String := [".txt", ".rst", ".md", ".mw"]

/-- The claim's content-filter predicate, following its words: some line
of some file of the note whose extension is in `specTextExts` matches. -/
def specContentMatch (pat : String → Bool) (env : Oracles) (n : Note) : Bool :=
  (n.exts.filter (fun e => specTextExts.contains e)).any (fun ext =>
    match env.fileLines (realpath n.date n.rand) ext with
    | some lines => lines.any pat
    | none => false)

/-! ## C9: a corrupt leaf aborts the traversal

`find_note` calls `Note.nnid_decode` on every pattern-matched leaf with
no exception handling whatever; the source has no `CorruptEntry`
notion.  A store holding `01107ba0-00000000-00000000.txt` (head =
2000-02-30, a nonexistent date) therefore kills the whole iteration
with the decode error, and a perfectly valid note sorted after it is
never yielded. -/

/-- A store with one corrupt leaf (2000-02-30) followed in traversal
order by one decodable leaf (2000-03-01). -/
def env9 : Oracles :=
  ⟨fun p =>
    if p = [NOTE_DIR] then some ["2000"]
    else if p = [NOTE_DIR, "2000"] then some ["02"]
    else if p = [NOTE_DIR, "2000", "02"] then
      some ["01107ba0-00000000-00000000.txt", "01107bd0-00000000-00000000.txt"]
    else none,
  fun _ => [], fun _ _ => none⟩

/-- An unfiltered forward iterator configuration. -/
def cfg9 : IterCfg := ⟨none, none, false, none, none, [], [], [], [], none⟩

/-- C9 (evaluation of the defect).  The corrupt filename matches the
leaf pattern, its identifier fails to decode, and the whole traversal
aborts with that error — no per-occurrence report, no continuing to the
next stack entry — even though a decodable note
(`01107bd0…` = 2000-03-01) sits right after it in the same directory. -/
theorem C9_decode_failure_aborts :
    matchLeaf "01107ba0-00000000-00000000.txt"
      = some ("01107ba0-00000000-00000000", ".txt") ∧
    nnid_decode "01107ba0-00000000-00000000" = .error .badDate ∧
    (∃ d r, nnid_decode "01107bd0-00000000-00000000" = .ok (d, r)) ∧
    noteCrawl cfg9 env9 = .error (.decodeFail "01107ba0-00000000-00000000") := by
  refine ⟨by decide, rfl, ⟨⟨2000, 3, 1, 0, 0, 0, 0⟩, 0, rfl⟩, rfl⟩

/-! ## C5: the index window -/

/-- Ordinal `k` does not exceed the (derived) cap. -/
def capOkB (index_max : Option Nat) (k : Nat) : Bool :=
  match index_max with
  | none => true
  | some c => decide (k ≤ c)

/-- Ordinal `k` lies in the window: the window is unset, or some
`(min, max)` range contains `k`. -/
def inWindowB (index_set : Option (List (Nat × Nat))) (k : Nat) : Bool :=
  match index_set with
  | none => true
  | some rs => rs.any (fun p => decide (p.1 ≤ k) && decide (k ≤ p.2))

/-- Spec-side description of the surfaced subsequence: the match with
ordinal `k` (1-based) is surfaced iff `k` passes the cap and the
window. -/
def windowSpec (index_set : Option (List (Nat × Nat))) (index_max : Option Nat)
    (l : List Note) : List Note :=
  (l.enumFrom 1).filterMap
    (fun p => if capOkB index_max p.1 && inWindowB index_set p.1 then some p.2 else none)

theorem windowSpec_nil_of_capped (iset : Option (List (Nat × Nat))) (c : Nat) :
    ∀ (l : List Note) (i : Nat), c < i + 1 →
      (List.enumFrom (i + 1) l).filterMap
        (fun p => if capOkB (some c) p.1 && inWindowB iset p.1 then some p.2 else none)
        = [] := by
  intro l
  induction l with
  | nil => intro i _; rfl
  | cons note rest ih =>
    intro i hc
    rw [List.enumFrom_cons, List.filterMap_cons_none (by
      have hcap : capOkB (some c) (i + 1) = false := by
        simp only [capOkB, decide_eq_false_iff_not]
        omega
      simp [hcap])]
    exact ih (i + 1) (by omega)

theorem filterMap_head_some {α β : Type _} (f : α → Option β) (a : α) (l : List α)
    (b : β) (h : f a = some b) : List.filterMap f (a :: l) = b :: List.filterMap f l := by
  rw [List.filterMap_cons, h]

theorem filterMap_head_none {α β : Type _} (f : α → Option β) (a : α) (l : List α)
    (h : f a = none) : List.filterMap f (a :: l) = List.filterMap f l := by
  rw [List.filterMap_cons, h]

theorem windowGo_eq (iset : Option (List (Nat × Nat))) (imax : Option Nat) :
    ∀ (l : List Note) (i : Nat),
      windowGo iset imax i l
        = (l.enumFrom (i + 1)).filterMap
            (fun p => if capOkB imax p.1 && inWindowB iset p.1 then some p.2 else none) := by
  intro l
  induction l with
  | nil => intro i; rfl
  | cons note rest ih =>
    intro i
    cases imax with
    | none =>
      by_cases hw : inWindowB iset (i + 1) = true
      · rw [List.enumFrom_cons, filterMap_head_some _ _ _ note (by simp [capOkB, hw])]
        cases iset with
        | none =>
          simp only [windowGo]
          rw [if_neg (fun h => Bool.noConfusion h), ih (i + 1)]
        | some rs =>
          have hw' : (rs.any fun p => decide (p.1 ≤ i + 1) && decide (i + 1 ≤ p.2))
              = true := hw
          simp only [windowGo]
          rw [if_neg (fun h => Bool.noConfusion h), if_pos hw', ih (i + 1)]
      · rw [List.enumFrom_cons, filterMap_head_none _ _ _ (by simp [capOkB, hw])]
        cases iset with
        | none => exact absurd rfl hw
        | some rs =>
          have hw' : ¬((rs.any fun p => decide (p.1 ≤ i + 1) && decide (i + 1 ≤ p.2))
              = true) := hw
          simp only [windowGo]
          rw [if_neg (fun h => Bool.noConfusion h), if_neg hw', ih (i + 1)]
    | some c =>
      by_cases hc : c < i + 1
      · rw [List.enumFrom_cons, filterMap_head_none _ _ _ (by
          have h2 : capOkB (some c) (i + 1) = false := by
            simp only [capOkB, decide_eq_false_iff_not]
            omega
          simp [h2])]
        rw [windowSpec_nil_of_capped iset c rest (i + 1) (by omega)]
        simp only [windowGo]
        rw [if_pos (decide_eq_true hc)]
      · have hcap : capOkB (some c) (i + 1) = true := by
          simp only [capOkB, decide_eq_true_eq]
          omega
        by_cases hw : inWindowB iset (i + 1) = true
        · rw [List.enumFrom_cons, filterMap_head_some _ _ _ note (by simp [hcap, hw])]
          cases iset with
          | none =>
            simp only [windowGo]
            rw [if_neg (fun h => hc (of_decide_eq_true h)), ih (i + 1)]
          | some rs =>
            have hw' : (rs.any fun p => decide (p.1 ≤ i + 1) && decide (i + 1 ≤ p.2))
                = true := hw
            simp only [windowGo]
            rw [if_neg (fun h => hc (of_decide_eq_true h)), if_pos hw', ih (i + 1)]
        · rw [List.enumFrom_cons, filterMap_head_none _ _ _ (by simp [hcap, hw])]
          cases iset with
          | none => exact absurd rfl hw
          | some rs =>
            have hw' : ¬((rs.any fun p => decide (p.1 ≤ i + 1) && decide (i + 1 ≤ p.2))
                = true) := hw
            simp only [windowGo]
            rw [if_neg (fun h => hc (of_decide_eq_true h)), if_neg hw', ih (i + 1)]

/-- C5 (amended).  A filter-passing note with 1-based match ordinal `k`
is surfaced iff `k` does not exceed the *derived* cap **and** the window
is unset or `k` falls in at least one `(min, max)` range; the derived
cap is `index_set[-1][1]` — the upper bound of the *last sorted range*,
lowered further by a truthy count cap — so in-window ordinals beyond it
terminate the traversal instead of being surfaced (the correction: as
stated, the claim omits the derived cap, which bites exactly when the
last sorted range does not carry the window's greatest upper bound). -/
theorem C5_index_window_amended :
    (∀ iset imax (l : List Note),
      windowGo iset imax 0 l = windowSpec iset imax l) ∧
    (∀ (s : List (Nat × Nat)) imax, s ≠ [] →
      derivedIndexMax (some s) imax
        = some (match imax with
            | some c => if c ≠ 0 then min (s.getLastD (0, 0)).2 c
                        else (s.getLastD (0, 0)).2
            | none => (s.getLastD (0, 0)).2)) ∧
    (∀ cfg env ms, noteCrawl cfg env = .ok ms →
      iterNotes cfg env = .ok (windowSpec cfg.index_set cfg.index_max ms)) := by
  refine ⟨?_, ?_, ?_⟩
  · intro iset imax l
    exact windowGo_eq iset imax l 0
  · intro s imax hs
    have hse : s.isEmpty = false := by
      cases s with
      | nil => exact absurd rfl hs
      | cons a t => rfl
    simp only [derivedIndexMax, hse]
    rfl
  · intro cfg env ms h
    have hred : iterNotes cfg env
        = Except.ok (windowGo cfg.index_set cfg.index_max 0 ms) := by
      simp only [iterNotes, h]
      rfl
    rw [hred, windowGo_eq cfg.index_set cfg.index_max ms 0]
    rfl

/-- The store for the C5 window evaluations: one month of four notes
sharing a timestamp, nonces 0–3. -/
def env5 : Oracles :=
  ⟨fun p =>
    if p = [NOTE_DIR] then some ["2020"]
    else if p = [NOTE_DIR, "2020"] then some ["01"]
    else if p = [NOTE_DIR, "2020", "01"] then
      some ["01132f80-00000000-00000000.txt", "01132f80-00000000-00000001.txt",
            "01132f80-00000000-00000002.txt", "01132f80-00000000-00000003.txt"]
    else none,
  fun _ => [], fun _ _ => none⟩

/-- The `k`-th note of `env5`. -/
def note5 (k : Nat) : Note := ⟨⟨2020, 1, 1, 0, 0, 0, 0⟩, k, [".txt"]⟩

/-- The configuration `__init__` builds for
`index_set = [(1,10), (2,3)]` (as `argparse_range` sorts an overlapping
window) and no count cap: the derived cap is 3. -/
def cfg5 : IterCfg :=
  ⟨none, none, false, some [(1, 10), (2, 3)], some 3, [], [], [], [], none⟩

/-- C5 (counterexample).  With the sorted overlapping window
`[(1,10), (2,3)]` and no user count cap, the fourth filter-passing note
has ordinal 4 ∈ (1,10) — the claim says it is surfaced — yet the
traversal stops after ordinal 3 (the last sorted range's upper bound)
and the note is never yielded. -/
theorem C5_overlapping_window_counterexample :
    mkIterator none none false (some [(1, 10), (2, 3)]) none none none none
      = .ok cfg5 ∧
    noteCrawl cfg5 env5 = .ok [note5 0, note5 1, note5 2, note5 3] ∧
    inWindowB cfg5.index_set 4 = true ∧
    iterNotes cfg5 env5 = .ok [note5 0, note5 1, note5 2] := by
  refine ⟨rfl, rfl, by decide, rfl⟩

/-- Witness for C5 (amended) at the concrete store `env5`. -/
theorem C5_index_window_amended_witness :
    derivedIndexMax (some [(1, 10), (2, 3)]) none = some 3 ∧
    iterNotes cfg5 env5
      = .ok (windowSpec cfg5.index_set cfg5.index_max
          [note5 0, note5 1, note5 2, note5 3]) := by
  constructor
  · rw [C5_index_window_amended.2.1 [(1, 10), (2, 3)] none (by decide)]
    rfl
  · exact C5_index_window_amended.2.2 cfg5 env5 [note5 0, note5 1, note5 2, note5 3] rfl

/-- C8 (counterexample).  A note whose only file is Markdown with a line
matching the pattern: the claim (allow-list including Markdown) says the
filter succeeds, but the source's filter fails — `.md` is not in
`NOTE_EXT_GREP`, so the file is never scanned. -/
theorem C8_md_counterexample :
    valid_note_contents
      ⟨none, none, false, none, none, [], [], [], [],
        some (fun l => l == "needle")⟩
      ⟨fun _ => none, fun _ => [],
        fun _ ext => if ext = ".md" then some ["needle"] else none⟩
      ⟨⟨2020, 1, 1, 0, 0, 0, 0⟩, 0, [".md"]⟩ = .ok false ∧
    specContentMatch (fun l => l == "needle")
      ⟨fun _ => none, fun _ => [],
        fun _ ext => if ext = ".md" then some ["needle"] else none⟩
      ⟨⟨2020, 1, 1, 0, 0, 0, 0⟩, 0, [".md"]⟩ = true := by
  exact ⟨rfl, by decide⟩

/-! ## C4: output ordering of the traversal

The iterator's order is inherited from the sorted directory listings.
`notePairLeB` is the `(timestamp, nonce)` comparison of the claim;
`noteOrd`/`strOrd` select the direction from the `reverse` flag.
`NodupListings` states that every directory listing holds distinct names
(as `os.listdir` guarantees for a real directory). -/

/-- The claim's weak order on notes: `(date, rand) ≤ (date, rand)`. -/
def notePairLeB (a b : Note) : Bool :=
  dateLt a.date b.date || (decide (a.date = b.date) && decide (a.rand ≤ b.rand))

/-- Direction-adjusted note order: ascending pairs for a forward
traversal, descending for a reverse one. -/
def noteOrd (rev : Bool) (a b : Note) : Bool :=
  if rev then notePairLeB b a else notePairLeB a b

/-- Direction-adjusted strict string order on pop-order entries. -/
def strOrd (rev : Bool) (a b : String) : Bool :=
  if rev then pyStrLt b a else pyStrLt a b

/-- Every directory listing of the store holds pairwise-distinct names. -/
def NodupListings (env : Oracles) : Prop :=
  ∀ p, ((env.listdir p).getD []).Nodup

theorem pyLt_trans {a b c : String} (h1 : pyStrLt a b = true)
    (h2 : pyStrLt b c = true) : pyStrLt a c = true :=
  listCharLt_trans _ _ _ h1 h2

theorem pyLt_of_le_ne {a b : String} (h1 : pyStrLt b a = false) (h2 : a ≠ b) :
    pyStrLt a b = true := by
  rcases listCharLt_or_eq a.toList b.toList with h | h | h
  · exact h
  · exact absurd (string_eq_of_toList_eq h) h2
  · simp only [pyStrLt] at h1
    rw [h1] at h
    cases h

theorem pyLt_lt_of_le {a b c : String} (h1 : pyStrLt a b = true)
    (h2 : pyStrLt c b = false) : pyStrLt a c = true := by
  rcases listCharLt_or_eq b.toList c.toList with h | h | h
  · exact listCharLt_trans _ _ _ h1 h
  · have hbc : b = c := string_eq_of_toList_eq h
    subst hbc
    exact h1
  · simp only [pyStrLt] at h2
    rw [h2] at h
    cases h

theorem nnidShape_length {cs : List Char} (h : nnidShapeLower cs = true) :
    cs.length = 26 := by
  simp only [nnidShapeLower, Bool.and_eq_true, decide_eq_true_eq] at h
  exact h.1.1.1.1.1

/-- A code-point comparison of whole leaf filenames bounds the
comparison of their 26-character identifier prefixes. -/
theorem matchLeaf_id_le {fn1 fn2 nnid1 nnid2 e1 e2 : String}
    (hm1 : matchLeaf fn1 = some (nnid1, e1)) (hm2 : matchLeaf fn2 = some (nnid2, e2))
    (hle : pyStrLt fn2 fn1 = false) : pyStrLt nnid2 nnid1 = false := by
  cases hx : pyStrLt nnid2 nnid1
  · rfl
  · exfalso
    have hlen : nnid2.toList.length = nnid1.toList.length := by
      rw [nnidShape_length (matchLeaf_shape hm2), nnidShape_length (matchLeaf_shape hm1)]
    have hfull : listCharLt fn2.toList fn1.toList = true := by
      rw [matchLeaf_decomp hm2, matchLeaf_decomp hm1,
        listCharLt_append _ _ _ _ hlen]
      by_cases heq : nnid2.toList = nnid1.toList
      · have he2 : nnid2 = nnid1 := string_eq_of_toList_eq heq
        rw [he2] at hx
        exact Bool.noConfusion ((listCharLt_irrefl nnid1.toList).symm.trans hx)
      · rw [if_neg heq]
        exact hx
    simp only [pyStrLt] at hle
    rw [hle] at hfull
    cases hfull

/-- The leaf merge of a weakly sorted pair list produces strictly
ascending identifiers: adjacent equal identifiers collapse into one
entry. -/
theorem mergeAux_pairwise :
    ∀ (id : String) (exts : List String) (pairs : List (String × String)),
      (∀ p ∈ pairs, pyStrLt p.1 id = false) →
      pairs.Pairwise (fun p q => pyStrLt q.1 p.1 = false) →
      (mergeAux id exts pairs).Pairwise (fun p q => pyStrLt p.1 q.1 = true) := by
  intro id exts pairs
  induction pairs generalizing id exts with
  | nil =>
    intro _ _
    simp [mergeAux]
  | cons p rest ih =>
    obtain ⟨id2, e2⟩ := p
    intro hge hpw
    rw [List.pairwise_cons] at hpw
    obtain ⟨hhd, htl⟩ := hpw
    simp only [mergeAux]
    by_cases heq : id2 = id
    · rw [if_pos heq]
      apply ih
      · intro q hq
        have hq2 := hhd q hq
        rw [heq] at hq2
        exact hq2
      · exact htl
    · rw [if_neg heq]
      rw [List.pairwise_cons]
      have hid : pyStrLt id id2 = true :=
        pyLt_of_le_ne (hge (id2, e2) (List.mem_cons_self _ _)) (fun h => heq h.symm)
      constructor
      · intro q hq
        rcases mergeAux_mem id2 [e2] rest hq with h1 | ⟨e, he⟩
        · rw [h1]
          exact hid
        · exact pyLt_lt_of_le hid (hhd (q.1, e) he)
      · exact ih id2 [e2] (fun q hq => hhd q hq) htl

theorem mergeLeaves_pairwise {pairs : List (String × String)}
    (hpw : pairs.Pairwise (fun p q => pyStrLt q.1 p.1 = false)) :
    (mergeLeaves pairs).Pairwise (fun p q => pyStrLt p.1 q.1 = true) := by
  cases pairs with
  | nil => exact List.Pairwise.nil
  | cons p rest =>
    obtain ⟨id, e⟩ := p
    rw [List.pairwise_cons] at hpw
    exact mergeAux_pairwise id [e] rest (fun q hq => hpw.1 q hq) hpw.2

/-- Leaf entries are strictly ordered in the traversal direction. -/
theorem leafEntries_pairwise (env : Oracles) (cfg : IterCfg) (path : List String) :
    (leafEntries env cfg path).Pairwise
      (fun p q => strOrd cfg.reverse p.1 q.1 = true) := by
  have hpairs : ((sortStrings ((env.listdir path).getD [])).filterMap matchLeaf).Pairwise
      (fun p q => pyStrLt q.1 p.1 = false) := by
    apply List.Pairwise.filterMap matchLeaf ?_ (sortStrings_sorted _)
    intro a a2 hle b hb b2 hb2
    rw [Option.mem_def] at hb hb2
    obtain ⟨nnid1, e1⟩ := b
    obtain ⟨nnid2, e2⟩ := b2
    have hlt : pyStrLt a2 a = false := by
      simp only [pyStrLe, Bool.not_eq_true'] at hle
      exact hle
    exact matchLeaf_id_le hb hb2 hlt
  have hmerged := mergeLeaves_pairwise hpairs
  simp only [leafEntries]
  by_cases hr : cfg.reverse = true
  · rw [if_pos hr, List.pairwise_reverse]
    apply hmerged.imp
    intro p q h
    simp only [strOrd]
    rw [if_pos hr]
    exact h
  · rw [if_neg hr]
    apply hmerged.imp
    intro p q h
    simp only [strOrd]
    rw [if_neg hr]
    exact h

theorem leafEntries_shape {env : Oracles} {cfg : IterCfg} {path : List String}
    {nnid : String} {exts : List String}
    (h : (nnid, exts) ∈ leafEntries env cfg path) :
    nnidShapeLower nnid.toList = true := by
  obtain ⟨fn, _, ext, hm⟩ := leafEntries_mem h
  exact matchLeaf_shape hm

/-- Directory entries of a duplicate-free listing are strictly ordered
in the traversal direction. -/
theorem dirEntries_pairwise (env : Oracles) (cfg : IterCfg) (path : List String)
    (w : Nat) (hnd : ((env.listdir path).getD []).Nodup) :
    (dirEntries env cfg path w).Pairwise
      (fun a b => strOrd cfg.reverse a b = true) := by
  have hsorted : (sortStrings ((env.listdir path).getD [])).Pairwise
      (fun a b => pyStrLt b a = false) := by
    apply (sortStrings_sorted _).imp
    intro a b h
    simp only [pyStrLe, Bool.not_eq_true'] at h
    exact h
  have hnodup : (sortStrings ((env.listdir path).getD [])).Nodup :=
    ((sortStrings_perm _).nodup_iff).mpr hnd
  have hstrict : (sortStrings ((env.listdir path).getD [])).Pairwise
      (fun a b => pyStrLt a b = true) := by
    apply (hsorted.and hnodup).imp
    intro a b hab
    exact pyLt_of_le_ne hab.1 hab.2
  have hfil := hstrict.filter (isDigits w)
  simp only [dirEntries]
  by_cases hr : cfg.reverse = true
  · rw [if_pos hr, List.pairwise_reverse]
    apply hfil.imp
    intro a b h
    simp only [strOrd]
    rw [if_pos hr]
    exact h
  · rw [if_neg hr]
    apply hfil.imp
    intro a b h
    simp only [strOrd]
    rw [if_neg hr]
    exact h

/-- `valid_note` never changes the note's date or nonce (it only narrows
the extension set). -/
theorem valid_note_ok_fields {cfg : IterCfg} {env : Oracles} {note : Note}
    {b : Bool} {n2 : Note} (h : valid_note cfg env note = .ok (b, n2)) :
    n2.date = note.date ∧ n2.rand = note.rand := by
  simp only [valid_note] at h
  split at h
  · rw [Except.ok.injEq, Prod.mk.injEq] at h
    rw [← h.2]
    exact ⟨rfl, rfl⟩
  · split at h
    · rw [Except.ok.injEq, Prod.mk.injEq] at h
      rw [← h.2]
      exact ⟨rfl, rfl⟩
    · split at h
      · rw [Except.ok.injEq, Prod.mk.injEq] at h
        rw [← h.2]
        exact ⟨rfl, rfl⟩
      · split at h
        · rw [Except.ok.injEq, Prod.mk.injEq] at h
          rw [← h.2]
          exact ⟨rfl, rfl⟩
        · cases hvc : valid_note_contents cfg env
              { note with exts := narrowedExts cfg note.exts } with
          | error e =>
            rw [hvc] at h
            exact Except.noConfusion h
          | ok c =>
            rw [hvc] at h
            have h2 : (Except.ok (c, { note with exts := narrowedExts cfg note.exts })
                : Except TravErr (Bool × Note)) = .ok (b, n2) := h
            rw [Except.ok.injEq, Prod.mk.injEq] at h2
            rw [← h2.2]
            exact ⟨rfl, rfl⟩

/-- Every note produced by the leaf loop decodes from one of its
entries. -/
theorem crawlLeaves_mem (cfg : IterCfg) (env : Oracles) :
    ∀ (entries : List (String × List String)) (ns : List Note),
      crawlLeaves cfg env entries = .ok ns →
      ∀ n ∈ ns, ∃ p ∈ entries, nnid_decode p.1 = .ok (n.date, n.rand) := by
  intro entries
  induction entries with
  | nil =>
    intro ns h n hn
    injection h with h2
    subst h2
    cases hn
  | cons p rest ih =>
    obtain ⟨nnid, exts⟩ := p
    intro ns h n hn
    cases hdec : nnid_decode nnid with
    | error e =>
      simp only [crawlLeaves, hdec] at h
      exact Except.noConfusion h
    | ok dr =>
      obtain ⟨d, r⟩ := dr
      simp only [crawlLeaves, hdec] at h
      cases hvn : valid_note cfg env ⟨d, r, exts⟩ with
      | error e =>
        rw [hvn] at h
        exact Except.noConfusion h
      | ok kn =>
        obtain ⟨keep, note⟩ := kn
        rw [hvn] at h
        cases hcr : crawlLeaves cfg env rest with
        | error e =>
          rw [hcr] at h
          exact Except.noConfusion h
        | ok more =>
          rw [hcr] at h
          have h2 : (if keep then Except.ok (note :: more) else Except.ok more
              : Except TravErr (List Note)) = .ok ns := h
          cases hk : keep
          · rw [hk, if_neg (fun hh => Bool.noConfusion hh)] at h2
            injection h2 with h3
            subst h3
            obtain ⟨q, hq, hdq⟩ := ih more hcr n hn
            exact ⟨q, List.mem_cons_of_mem _ hq, hdq⟩
          · rw [hk, if_pos rfl] at h2
            injection h2 with h3
            subst h3
            rcases List.mem_cons.mp hn with rfl | hn2
            · refine ⟨(nnid, exts), List.mem_cons_self _ _, ?_⟩
              rw [(valid_note_ok_fields hvn).1, (valid_note_ok_fields hvn).2]
              exact hdec
            · obtain ⟨q, hq, hdq⟩ := ih more hcr n hn2
              exact ⟨q, List.mem_cons_of_mem _ hq, hdq⟩

/-- The leaf loop over strictly ordered well-shaped entries yields notes
ordered by `(date, nonce)` in the traversal direction. -/
theorem crawlLeaves_pairwise (cfg : IterCfg) (env : Oracles) :
    ∀ (entries : List (String × List String)) (ns : List Note),
      (∀ p ∈ entries, nnidShapeLower p.1.toList = true) →
      entries.Pairwise (fun p q => strOrd cfg.reverse p.1 q.1 = true) →
      crawlLeaves cfg env entries = .ok ns →
      ns.Pairwise (fun a b => noteOrd cfg.reverse a b = true) := by
  intro entries
  induction entries with
  | nil =>
    intro ns _ _ h
    injection h with h2
    subst h2
    exact List.Pairwise.nil
  | cons p rest ih =>
    obtain ⟨nnid, exts⟩ := p
    intro ns hshape hpw h
    rw [List.pairwise_cons] at hpw
    obtain ⟨hhd, htl⟩ := hpw
    cases hdec : nnid_decode nnid with
    | error e =>
      simp only [crawlLeaves, hdec] at h
      exact Except.noConfusion h
    | ok dr =>
      obtain ⟨d, r⟩ := dr
      simp only [crawlLeaves, hdec] at h
      cases hvn : valid_note cfg env ⟨d, r, exts⟩ with
      | error e =>
        rw [hvn] at h
        exact Except.noConfusion h
      | ok kn =>
        obtain ⟨keep, note⟩ := kn
        rw [hvn] at h
        cases hcr : crawlLeaves cfg env rest with
        | error e =>
          rw [hcr] at h
          exact Except.noConfusion h
        | ok more =>
          rw [hcr] at h
          have h2 : (if keep then Except.ok (note :: more) else Except.ok more
              : Except TravErr (List Note)) = .ok ns := h
          have ihp := ih more
            (fun q hq => hshape q (List.mem_cons_of_mem _ hq)) htl hcr
          cases hk : keep
          · rw [hk, if_neg (fun hh => Bool.noConfusion hh)] at h2
            injection h2 with h3
            subst h3
            exact ihp
          · rw [hk, if_pos rfl] at h2
            injection h2 with h3
            subst h3
            rw [List.pairwise_cons]
            refine ⟨?_, ihp⟩
            intro b hb
            obtain ⟨q, hq, hdq⟩ := crawlLeaves_mem cfg env rest more hcr b hb
            have hsh1 : nnidShapeLower nnid.toList = true :=
              hshape (nnid, exts) (List.mem_cons_self _ _)
            have hsh2 : nnidShapeLower q.1.toList = true :=
              hshape q (List.mem_cons_of_mem _ hq)
            have hord := hhd q hq
            obtain ⟨hbd, hbr⟩ := valid_note_ok_fields hvn
            by_cases hr : cfg.reverse = true
            · have hlt : pyStrLt q.1 nnid = true := by
                simp only [strOrd] at hord
                rw [if_pos hr] at hord
                exact hord
              simp only [noteOrd]
              rw [if_pos hr]
              simp only [notePairLeB]
              rcases decode_strict_mono hdq hdec hsh2 hsh1 hlt with hd1 | hd2
              · rw [hbd, hd1, Bool.true_or]
              · obtain ⟨hdeq, hrlt⟩ := hd2
                rw [hbd, hbr]
                have hand : (decide (b.date = d) && decide (b.rand ≤ r)) = true := by
                  rw [Bool.and_eq_true]
                  exact ⟨decide_eq_true hdeq, decide_eq_true (Nat.le_of_lt hrlt)⟩
                rw [hand, Bool.or_true]
            · have hlt : pyStrLt nnid q.1 = true := by
                simp only [strOrd] at hord
                rw [if_neg hr] at hord
                exact hord
              simp only [noteOrd]
              rw [if_neg hr]
              simp only [notePairLeB]
              rcases decode_strict_mono hdec hdq hsh1 hsh2 hlt with hd1 | hd2
              · rw [hbd, hd1, Bool.true_or]
              · obtain ⟨hdeq, hrlt⟩ := hd2
                rw [hbd, hbr]
                have hand : (decide (d = b.date) && decide (r ≤ b.rand)) = true := by
                  rw [Bool.and_eq_true]
                  exact ⟨decide_eq_true hdeq, decide_eq_true (Nat.le_of_lt hrlt)⟩
                rw [hand, Bool.or_true]

/-- On a well-placed store every note of a month bucket carries that
bucket's year and month. -/
theorem crawlLeaves_bucket_fields {cfg : IterCfg} {env : Oracles} {y m : String}
    {ns : List Note} (hwp : WellPlaced env)
    (hy4 : isDigits 4 y = true) (hym : y ∈ (env.listdir [NOTE_DIR]).getD [])
    (hm2 : isDigits 2 m = true) (hmm : m ∈ (env.listdir [NOTE_DIR, y]).getD [])
    (h : crawlLeaves cfg env (leafEntries env cfg [NOTE_DIR, y, m]) = .ok ns) :
    ∀ n ∈ ns, n.date.year = decVal y.toList ∧ n.date.month = decVal m.toList := by
  intro n hn
  obtain ⟨p, hp, hdp⟩ := crawlLeaves_mem cfg env _ ns h n hn
  obtain ⟨nnid, exts⟩ := p
  obtain ⟨fn, hfn, ext, hmatch⟩ := leafEntries_mem hp
  obtain ⟨d2, r2, hdec2, hyy, hmm2⟩ := hwp y hy4 hym m hm2 hmm fn hfn nnid ext hmatch
  rw [hdp] at hdec2
  rw [Except.ok.injEq, Prod.mk.injEq] at hdec2
  obtain ⟨hde, _⟩ := hdec2
  rw [← hde] at hyy hmm2
  exact ⟨hyy, hmm2⟩

/-- Strict string order on equal-width digit strings is strict numeric
order. -/
theorem decVal_lt_of_pyLt {a b : String} {w : Nat}
    (ha : isDigits w a = true) (hb : isDigits w b = true)
    (h : pyStrLt a b = true) : decVal a.toList < decVal b.toList := by
  simp only [isDigits, Bool.and_eq_true, decide_eq_true_eq] at ha hb
  apply (listCharLt_digits a.toList b.toList ?_ ?_ ?_).mp h
  · have e1 : a.toList.length = w := ha.1
    have e2 : b.toList.length = w := hb.1
    rw [e1, e2]
  · exact ha.2
  · exact hb.2

/-- Month level: ordered output, and every note carries its bucket's
year and some listed month. -/
theorem crawlMonths_pairwise (cfg : IterCfg) (env : Oracles) (y : String)
    (hwp : WellPlaced env)
    (hy4 : isDigits 4 y = true) (hym : y ∈ (env.listdir [NOTE_DIR]).getD []) :
    ∀ (months : List String) (ns : List Note),
      (∀ m ∈ months, isDigits 2 m = true ∧ m ∈ (env.listdir [NOTE_DIR, y]).getD []) →
      months.Pairwise (fun a b => strOrd cfg.reverse a b = true) →
      crawlMonths cfg env y months = .ok ns →
      ns.Pairwise (fun a b => noteOrd cfg.reverse a b = true)
      ∧ ∀ n ∈ ns, n.date.year = decVal y.toList
          ∧ ∃ m ∈ months, n.date.month = decVal m.toList := by
  intro months
  induction months with
  | nil =>
    intro ns _ _ h
    injection h with h2
    subst h2
    exact ⟨List.Pairwise.nil, fun n hn => absurd hn (List.not_mem_nil n)⟩
  | cons m rest ih =>
    intro ns hprops hpw h
    rw [List.pairwise_cons] at hpw
    obtain ⟨hhd, htl⟩ := hpw
    obtain ⟨hm2, hmm⟩ := hprops m (List.mem_cons_self _ _)
    simp only [crawlMonths] at h
    obtain ⟨keep, hvc⟩ : ∃ keep, valid_cursor cfg [NOTE_DIR, y, m] = .ok keep := by
      cases hvc2 : valid_cursor cfg [NOTE_DIR, y, m] with
      | error e =>
        rw [hvc2] at h
        exact Except.noConfusion h
      | ok b => exact ⟨b, rfl⟩
    rw [hvc] at h
    by_cases hk : keep = true
    · rw [hk] at h
      cases hcl : crawlLeaves cfg env (leafEntries env cfg [NOTE_DIR, y, m]) with
      | error e =>
        rw [hcl] at h
        exact Except.noConfusion h
      | ok here =>
        rw [hcl] at h
        cases hcm : crawlMonths cfg env y rest with
        | error e =>
          rw [hcm] at h
          exact Except.noConfusion h
        | ok more =>
          rw [hcm] at h
          have h2 : (Except.ok (here ++ more) : Except TravErr (List Note)) = .ok ns := h
          injection h2 with h3
          subst h3
          obtain ⟨ihpw, ihf⟩ := ih more
            (fun q hq => hprops q (List.mem_cons_of_mem _ hq)) htl hcm
          have hhpw : here.Pairwise (fun a b => noteOrd cfg.reverse a b = true) := by
            apply crawlLeaves_pairwise cfg env _ here ?_
              (leafEntries_pairwise env cfg _) hcl
            intro q hq
            obtain ⟨n1, e1⟩ := q
            exact leafEntries_shape hq
          have hhf := crawlLeaves_bucket_fields hwp hy4 hym hm2 hmm hcl
          constructor
          · rw [List.pairwise_append]
            refine ⟨hhpw, ihpw, ?_⟩
            intro a ha b hb
            obtain ⟨hay, ham⟩ := hhf a ha
            obtain ⟨hby, m2, hm2mem, hbm⟩ := ihf b hb
            obtain ⟨hm22, _⟩ := hprops m2 (List.mem_cons_of_mem _ hm2mem)
            have hms := hhd m2 hm2mem
            by_cases hr : cfg.reverse = true
            · have hlt : pyStrLt m2 m = true := by
                simp only [strOrd] at hms
                rw [if_pos hr] at hms
                exact hms
              have hdv := decVal_lt_of_pyLt hm22 hm2 hlt
              have hdlt : dateLt b.date a.date = true :=
                dateLt_of_year_eq_month_lt (by rw [hby, hay])
                  (by rw [hbm, ham]; exact hdv)
              simp only [noteOrd]
              rw [if_pos hr]
              simp only [notePairLeB]
              rw [hdlt, Bool.true_or]
            · have hlt : pyStrLt m m2 = true := by
                simp only [strOrd] at hms
                rw [if_neg hr] at hms
                exact hms
              have hdv := decVal_lt_of_pyLt hm2 hm22 hlt
              have hdlt : dateLt a.date b.date = true :=
                dateLt_of_year_eq_month_lt (by rw [hay, hby])
                  (by rw [ham, hbm]; exact hdv)
              simp only [noteOrd]
              rw [if_neg hr]
              simp only [notePairLeB]
              rw [hdlt, Bool.true_or]
          · intro n hn
            rcases List.mem_append.mp hn with hn1 | hn2
            · obtain ⟨hay, ham⟩ := hhf n hn1
              exact ⟨hay, m, List.mem_cons_self _ _, ham⟩
            · obtain ⟨hby, m2, hm2mem, hbm⟩ := ihf n hn2
              exact ⟨hby, m2, List.mem_cons_of_mem _ hm2mem, hbm⟩
    · have hk2 : keep = false := Bool.eq_false_iff.mpr hk
      rw [hk2] at h
      cases hcm : crawlMonths cfg env y rest with
      | error e =>
        rw [hcm] at h
        exact Except.noConfusion h
      | ok more =>
        rw [hcm] at h
        have h2 : (Except.ok more : Except TravErr (List Note)) = .ok ns := h
        injection h2 with h3
        subst h3
        obtain ⟨ihpw, ihf⟩ := ih more
          (fun q hq => hprops q (List.mem_cons_of_mem _ hq)) htl hcm
        refine ⟨ihpw, ?_⟩
        intro n hn
        obtain ⟨hby, m2, hm2mem, hbm⟩ := ihf n hn
        exact ⟨hby, m2, List.mem_cons_of_mem _ hm2mem, hbm⟩

/-- Year level: ordered output, and every note carries some listed
year. -/
theorem crawlYears_pairwise (cfg : IterCfg) (env : Oracles)
    (hwp : WellPlaced env) (hnd : NodupListings env) :
    ∀ (years : List String) (ns : List Note),
      (∀ y ∈ years, isDigits 4 y = true ∧ y ∈ (env.listdir [NOTE_DIR]).getD []) →
      years.Pairwise (fun a b => strOrd cfg.reverse a b = true) →
      crawlYears cfg env years = .ok ns →
      ns.Pairwise (fun a b => noteOrd cfg.reverse a b = true)
      ∧ ∀ n ∈ ns, ∃ y ∈ years, n.date.year = decVal y.toList := by
  intro years
  induction years with
  | nil =>
    intro ns _ _ h
    injection h with h2
    subst h2
    exact ⟨List.Pairwise.nil, fun n hn => absurd hn (List.not_mem_nil n)⟩
  | cons y rest ih =>
    intro ns hprops hpw h
    rw [List.pairwise_cons] at hpw
    obtain ⟨hhd, htl⟩ := hpw
    obtain ⟨hy4, hym⟩ := hprops y (List.mem_cons_self _ _)
    simp only [crawlYears] at h
    obtain ⟨keep, hvc⟩ : ∃ keep, valid_cursor cfg [NOTE_DIR, y] = .ok keep := by
      cases hvc2 : valid_cursor cfg [NOTE_DIR, y] with
      | error e =>
        rw [hvc2] at h
        exact Except.noConfusion h
      | ok b => exact ⟨b, rfl⟩
    rw [hvc] at h
    by_cases hk : keep = true
    · rw [hk] at h
      cases hcm : crawlMonths cfg env y (dirEntries env cfg [NOTE_DIR, y] 2) with
      | error e =>
        rw [hcm] at h
        exact Except.noConfusion h
      | ok here =>
        rw [hcm] at h
        cases hcy : crawlYears cfg env rest with
        | error e =>
          rw [hcy] at h
          exact Except.noConfusion h
        | ok more =>
          rw [hcy] at h
          have h2 : (Except.ok (here ++ more) : Except TravErr (List Note)) = .ok ns := h
          injection h2 with h3
          subst h3
          obtain ⟨ihpw, ihf⟩ := ih more
            (fun q hq => hprops q (List.mem_cons_of_mem _ hq)) htl hcy
          obtain ⟨hhpw, hhf⟩ := crawlMonths_pairwise cfg env y hwp hy4 hym
            (dirEntries env cfg [NOTE_DIR, y] 2) here
            (fun q hq => ⟨(dirEntries_mem hq).2, (dirEntries_mem hq).1⟩)
            (dirEntries_pairwise env cfg [NOTE_DIR, y] 2 (hnd _)) hcm
          constructor
          · rw [List.pairwise_append]
            refine ⟨hhpw, ihpw, ?_⟩
            intro a ha b hb
            obtain ⟨hay, _⟩ := hhf a ha
            obtain ⟨y2, hy2mem, hby⟩ := ihf b hb
            obtain ⟨hy24, _⟩ := hprops y2 (List.mem_cons_of_mem _ hy2mem)
            have hys := hhd y2 hy2mem
            by_cases hr : cfg.reverse = true
            · have hlt : pyStrLt y2 y = true := by
                simp only [strOrd] at hys
                rw [if_pos hr] at hys
                exact hys
              have hdv := decVal_lt_of_pyLt hy24 hy4 hlt
              have hdlt : dateLt b.date a.date = true :=
                dateLt_of_year_lt (by rw [hby, hay]; exact hdv)
              simp only [noteOrd]
              rw [if_pos hr]
              simp only [notePairLeB]
              rw [hdlt, Bool.true_or]
            · have hlt : pyStrLt y y2 = true := by
                simp only [strOrd] at hys
                rw [if_neg hr] at hys
                exact hys
              have hdv := decVal_lt_of_pyLt hy4 hy24 hlt
              have hdlt : dateLt a.date b.date = true :=
                dateLt_of_year_lt (by rw [hay, hby]; exact hdv)
              simp only [noteOrd]
              rw [if_neg hr]
              simp only [notePairLeB]
              rw [hdlt, Bool.true_or]
          · intro n hn
            rcases List.mem_append.mp hn with hn1 | hn2
            · exact ⟨y, List.mem_cons_self _ _, (hhf n hn1).1⟩
            · obtain ⟨y2, hy2mem, hby⟩ := ihf n hn2
              exact ⟨y2, List.mem_cons_of_mem _ hy2mem, hby⟩
    · have hk2 : keep = false := Bool.eq_false_iff.mpr hk
      rw [hk2] at h
      cases hcy : crawlYears cfg env rest with
      | error e =>
        rw [hcy] at h
        exact Except.noConfusion h
      | ok more =>
        rw [hcy] at h
        have h2 : (Except.ok more : Except TravErr (List Note)) = .ok ns := h
        injection h2 with h3
        subst h3
        obtain ⟨ihpw, ihf⟩ := ih more
          (fun q hq => hprops q (List.mem_cons_of_mem _ hq)) htl hcy
        refine ⟨ihpw, ?_⟩
        intro n hn
        obtain ⟨y2, hy2mem, hby⟩ := ihf n hn
        exact ⟨y2, List.mem_cons_of_mem _ hy2mem, hby⟩

/-- The index window only ever drops notes from the match stream. -/
theorem windowGo_sublist (iset : Option (List (Nat × Nat))) (imax : Option Nat) :
    ∀ (i : Nat) (ms : List Note), (windowGo iset imax i ms).Sublist ms := by
  cases imax with
  | none =>
    cases iset with
    | none =>
      intro i ms
      induction ms generalizing i with
      | nil => exact List.Sublist.refl []
      | cons note rest ih =>
        simp only [windowGo]
        rw [if_neg (fun hh => Bool.noConfusion hh)]
        exact List.Sublist.cons₂ note (ih (i + 1))
    | some rs =>
      intro i ms
      induction ms generalizing i with
      | nil => exact List.Sublist.refl []
      | cons note rest ih =>
        simp only [windowGo]
        rw [if_neg (fun hh => Bool.noConfusion hh)]
        by_cases hw : (rs.any fun p => decide (p.1 ≤ i + 1) && decide (i + 1 ≤ p.2)) = true
        · rw [if_pos hw]
          exact List.Sublist.cons₂ note (ih (i + 1))
        · rw [if_neg hw]
          exact List.Sublist.cons note (ih (i + 1))
  | some c =>
    cases iset with
    | none =>
      intro i ms
      induction ms generalizing i with
      | nil => exact List.Sublist.refl []
      | cons note rest ih =>
        simp only [windowGo]
        by_cases hc : decide (c < i + 1) = true
        · rw [if_pos hc]
          exact List.nil_sublist _
        · rw [if_neg hc]
          exact List.Sublist.cons₂ note (ih (i + 1))
    | some rs =>
      intro i ms
      induction ms generalizing i with
      | nil => exact List.Sublist.refl []
      | cons note rest ih =>
        simp only [windowGo]
        by_cases hc : decide (c < i + 1) = true
        · rw [if_pos hc]
          exact List.nil_sublist _
        · rw [if_neg hc]
          by_cases hw : (rs.any fun p => decide (p.1 ≤ i + 1) && decide (i + 1 ≤ p.2)) = true
          · rw [if_pos hw]
            exact List.Sublist.cons₂ note (ih (i + 1))
          · rw [if_neg hw]
            exact List.Sublist.cons note (ih (i + 1))

/-- C4 (amended).  On a well-placed store whose directory listings hold
pairwise-distinct names, every run of the iterator pipeline yields notes
in monotone `(timestamp, nonce)` order: with `reverse=false` successive
pairs are non-decreasing, with `reverse=true` non-increasing (stated
pairwise over the whole output, which implies the successive form).  The
well-placedness hypothesis is the correction: a store with a misplaced
leaf breaks the order (see the counterexample). -/
theorem C4_monotone_amended (cfg : IterCfg) (env : Oracles)
    (hwp : WellPlaced env) (hnd : NodupListings env) {ns : List Note}
    (h : iterNotes cfg env = .ok ns) :
    ns.Pairwise (fun a b => noteOrd cfg.reverse a b = true) := by
  cases hcr : noteCrawl cfg env with
  | error e =>
    simp only [iterNotes, hcr] at h
    exact Except.noConfusion h
  | ok ms =>
    have hred : iterNotes cfg env
        = .ok (windowGo cfg.index_set cfg.index_max 0 ms) := by
      simp only [iterNotes, hcr]
      rfl
    rw [hred, Except.ok.injEq] at h
    subst h
    apply List.Pairwise.sublist (windowGo_sublist _ _ 0 ms)
    have hnc : noteCrawl cfg env
        = crawlYears cfg env (dirEntries env cfg [NOTE_DIR] 4) := by
      simp only [noteCrawl, valid_cursor_root cfg]
      rfl
    rw [hnc] at hcr
    exact (crawlYears_pairwise cfg env hwp hnd _ ms
      (fun y hy => ⟨(dirEntries_mem hy).2, (dirEntries_mem hy).1⟩)
      (dirEntries_pairwise env cfg [NOTE_DIR] 4 (hnd _)) hcr).1

/-- A store whose `2020/01` bucket holds a misplaced leaf carrying a
1999 identity, after a well-placed 2019 note. -/
def env4 : Oracles :=
  ⟨fun p =>
    if p = [NOTE_DIR] then some ["2019", "2020"]
    else if p = [NOTE_DIR, "2019"] then some ["01"]
    else if p = [NOTE_DIR, "2020"] then some ["01"]
    else if p = [NOTE_DIR, "2019", "01"] then
      some ["01130ca0-00000000-00000000.txt"]
    else if p = [NOTE_DIR, "2020", "01"] then
      some ["01105320-00000000-00000000.txt"]
    else none,
  fun _ => [], fun _ _ => none⟩

/-- An unbounded forward iterator with no filters. -/
def cfg4 : IterCfg := ⟨none, none, false, none, none, [], [], [], [], none⟩

/-- C4 (counterexample).  On a hierarchy with a misplaced leaf — an
identity decoding to 1999-01-01 stored under `2020/01/` — the forward
traversal yields the 2019 note first and the 1999 note second, a
strictly decreasing `(timestamp, nonce)` pair, so the claim's
unconditional non-decreasing order is false as stated. -/
theorem C4_order_counterexample :
    iterNotes cfg4 env4
      = .ok [⟨⟨2019, 1, 1, 0, 0, 0, 0⟩, 0, [".txt"]⟩,
             ⟨⟨1999, 1, 1, 0, 0, 0, 0⟩, 0, [".txt"]⟩] ∧
    cfg4.reverse = false ∧
    notePairLeB ⟨⟨2019, 1, 1, 0, 0, 0, 0⟩, 0, [".txt"]⟩
      ⟨⟨1999, 1, 1, 0, 0, 0, 0⟩, 0, [".txt"]⟩ = false := by
  refine ⟨rfl, rfl, by decide⟩

/-- The well-placed variant of `env4`: both notes stored in the buckets
their identities name. -/
def env4W : Oracles :=
  ⟨fun p =>
    if p = [NOTE_DIR] then some ["2019", "2020"]
    else if p = [NOTE_DIR, "2019"] then some ["01"]
    else if p = [NOTE_DIR, "2020"] then some ["01"]
    else if p = [NOTE_DIR, "2019", "01"] then
      some ["01130ca0-00000000-00000000.txt"]
    else if p = [NOTE_DIR, "2020", "01"] then
      some ["01132f80-00000000-00000000.txt"]
    else none,
  fun _ => [], fun _ _ => none⟩

theorem env4W_wellPlaced : WellPlaced env4W := by
  intro y hy4 hym m hm2 hmm fn hfn nnid ext hmatch
  have h0 : (env4W.listdir [NOTE_DIR]).getD [] = ["2019", "2020"] := rfl
  rw [h0] at hym
  rcases List.mem_cons.mp hym with rfl | hym2
  · have h1 : (env4W.listdir [NOTE_DIR, "2019"]).getD [] = ["01"] := rfl
    rw [h1, List.mem_singleton] at hmm
    subst hmm
    have h2 : (env4W.listdir [NOTE_DIR, "2019", "01"]).getD []
        = ["01130ca0-00000000-00000000.txt"] := rfl
    rw [h2, List.mem_singleton] at hfn
    subst hfn
    have h3 : matchLeaf "01130ca0-00000000-00000000.txt"
        = some ("01130ca0-00000000-00000000", ".txt") := rfl
    rw [h3, Option.some.injEq, Prod.mk.injEq] at hmatch
    obtain ⟨h4, _⟩ := hmatch
    subst h4
    exact ⟨⟨2019, 1, 1, 0, 0, 0, 0⟩, 0, rfl, rfl, rfl⟩
  · rw [List.mem_singleton] at hym2
    subst hym2
    have h1 : (env4W.listdir [NOTE_DIR, "2020"]).getD [] = ["01"] := rfl
    rw [h1, List.mem_singleton] at hmm
    subst hmm
    have h2 : (env4W.listdir [NOTE_DIR, "2020", "01"]).getD []
        = ["01132f80-00000000-00000000.txt"] := rfl
    rw [h2, List.mem_singleton] at hfn
    subst hfn
    have h3 : matchLeaf "01132f80-00000000-00000000.txt"
        = some ("01132f80-00000000-00000000", ".txt") := rfl
    rw [h3, Option.some.injEq, Prod.mk.injEq] at hmatch
    obtain ⟨h4, _⟩ := hmatch
    subst h4
    exact ⟨⟨2020, 1, 1, 0, 0, 0, 0⟩, 0, rfl, rfl, rfl⟩

theorem env4W_nodupListings : NodupListings env4W := by
  intro p
  have e : env4W.listdir p
      = (if p = [NOTE_DIR] then some ["2019", "2020"]
        else if p = [NOTE_DIR, "2019"] then some ["01"]
        else if p = [NOTE_DIR, "2020"] then some ["01"]
        else if p = [NOTE_DIR, "2019", "01"] then
          some ["01130ca0-00000000-00000000.txt"]
        else if p = [NOTE_DIR, "2020", "01"] then
          some ["01132f80-00000000-00000000.txt"]
        else none) := rfl
  rw [e]
  split_ifs <;> decide

/-- Witness for C4 (amended): on the two-note well-placed store the
forward pipeline yields an ascending pair. -/
theorem C4_monotone_amended_witness :
    iterNotes cfg4 env4W
      = .ok [⟨⟨2019, 1, 1, 0, 0, 0, 0⟩, 0, [".txt"]⟩,
             ⟨⟨2020, 1, 1, 0, 0, 0, 0⟩, 0, [".txt"]⟩] ∧
    ([⟨⟨2019, 1, 1, 0, 0, 0, 0⟩, 0, [".txt"]⟩,
      ⟨⟨2020, 1, 1, 0, 0, 0, 0⟩, 0, [".txt"]⟩] : List Note).Pairwise
        (fun a b => noteOrd cfg4.reverse a b = true) :=
  ⟨rfl, C4_monotone_amended cfg4 env4W env4W_wellPlaced env4W_nodupListings rfl⟩

end NoteModel
